import Mathlib

/-!
Verification of `bin/update_gff.py` (coordinates_conversion repository).

The Python program rewrites a GFF3 annotation file through a table of
alignment intervals.  The classes and functions of `GffUpdater` are embedded
below as executable Lean definitions:

* `parseAlignLine` / `read_alignment_list_tsv` model
  `GffUpdater.read_alignment_list_tsv` (source lines 60-84);
* `findRootLoop` models `GffUpdater._find_root_features` (lines 86-125);
* `classifyFeature` and `updateLoop` model `GffUpdater._update_features`
  (lines 127-178);
* `sequence_regions` models `GffUpdater._output_sequence_region`
  (lines 180-194);
* `outputLoop` models `GffUpdater._output_features` (lines 196-229);
* `updateGff` models `GffUpdater.update` (lines 48-58).

Conventions of the embedding:
* A text file is a `List String`, one element per physical line, without the
  trailing newline character (every write call of the source emits exactly
  one line, so the written files are also `List String`).
* Python `dict`s are association lists (`dset`/`dget` below) with
  overwrite-on-assignment semantics; `defaultdict(list)` reads through
  `dgetList` with default `[]`.
* Fallible Python operations (list indexing, `dict[...]`, `int(...)`,
  attribute access) return `Except String`, carrying the Python exception
  name; the pass functions propagate errors exactly where the source would
  raise.
* Python (2.7) integers are `Int`; `str(int)` is `pyStr`.
-/

/-- Python `str.split(sep)` for a one-character separator, on char lists. -/
def splitChars (sep : Char) : List Char → List (List Char)
  | [] => [[]]
  | c :: rest =>
    let r := splitChars sep rest
    if c = sep then [] :: r
    else
      match r with
      | h :: t => (c :: h) :: t
      | [] => [[c]]

/-- Python `line.split('\t')`. -/
def splitTab (s : String) : List String :=
  (splitChars '\t' s.toList).map String.mk

/-- Python `'\t'.join(tokens)`. -/
def joinTab : List String → String
  | [] => ""
  | [x] => x
  | x :: xs => x ++ "\t" ++ joinTab xs

/-- The characters removed by Python `str.strip()`. -/
def isPyWS (c : Char) : Bool :=
  c = ' ' || c = '\t' || c = '\n' || c = '\r' || c = '\x0b' || c = '\x0c'

/-- Python `line.strip()`. -/
def pyStrip (s : String) : String :=
  String.mk (((s.toList.dropWhile isPyWS).reverse.dropWhile isPyWS).reverse)

/-- Python `s.startswith(t)`. -/
def strStarts (s t : String) : Bool := t.toList.isPrefixOf s.toList

/-- Python `line[0]`, as an `Option` (the source only evaluates it on
non-empty lines, after the blank-line check). -/
def pyFirstChar (s : String) : Option Char :=
  s.toList.head?

/-- Digits of a decimal numeral; `none` when empty or non-digit. -/
def parseDigits : List Char → Option Nat
  | [] => none
  | cs =>
    if cs.all Char.isDigit then
      some (cs.foldl (fun n c => 10 * n + (c.toNat - 48)) 0)
    else none

/-- Python `int(s)` on a string: optional surrounding whitespace, optional
sign, decimal digits; raises `ValueError` otherwise. -/
def pyInt (s : String) : Except String Int :=
  match (pyStrip s).toList with
  | '-' :: rest =>
    match parseDigits rest with
    | some n => .ok (-(n : Int))
    | none => .error "ValueError"
  | '+' :: rest =>
    match parseDigits rest with
    | some n => .ok (n : Int)
    | none => .error "ValueError"
  | cs =>
    match parseDigits cs with
    | some n => .ok (n : Int)
    | none => .error "ValueError"

/-- Python `str(i)` for an integer. -/
def pyStr (i : Int) : String := toString i

/-- Python list indexing `l[i]` (non-negative index), raising `IndexError`. -/
def pyIndex {α : Type} (l : List α) (i : Nat) : Except String α :=
  match l.get? i with
  | some x => .ok x
  | none => .error "IndexError"

/-- Python `d[k]` on a plain dict, raising `KeyError` when absent. -/
def pyKeyE {α : Type} (v : Option α) : Except String α :=
  match v with
  | some x => .ok x
  | none => .error "KeyError"

/-- Association-list read, modelling Python dict lookup. -/
def dget {α β : Type} [DecidableEq α] : List (α × β) → α → Option β
  | [], _ => none
  | (k', v') :: rest, k => if k' = k then some v' else dget rest k

/-- Association-list write, modelling Python `d[k] = v`. -/
def dset {α β : Type} [DecidableEq α] : List (α × β) → α → β → List (α × β)
  | [], k, v => [(k, v)]
  | (k', v') :: rest, k, v =>
    if k' = k then (k, v) :: rest else (k', v') :: dset rest k v

/-- Read on a `defaultdict(list)`: missing keys read as `[]`. -/
def dgetList {α β : Type} [DecidableEq α] (d : List (α × List β)) (k : α) : List β :=
  (dget d k).getD []

/-- Append `d[k].append(v)` on a `defaultdict(list)`. -/
def dappend {α β : Type} [DecidableEq α] (d : List (α × List β)) (k : α) (v : β) :
    List (α × List β) :=
  dset d k (dgetList d k ++ [v])

theorem dget_dset {α β : Type} [DecidableEq α] (d : List (α × β)) (k k' : α) (v : β) :
    dget (dset d k v) k' = if k = k' then some v else dget d k' := by
  induction d with
  | nil =>
    by_cases h : k = k' <;> simp [dset, dget, h]
  | cons p rest ih =>
    obtain ⟨k0, v0⟩ := p
    by_cases h0 : k0 = k
    · subst h0
      simp only [dset, if_pos rfl, dget]
      by_cases h1 : k0 = k' <;> simp [h1]
    · simp only [dset, if_neg h0, dget]
      by_cases h1 : k0 = k'
      · subst h1
        have hk : ¬ k = k0 := fun h => h0 h.symm
        simp [dget, hk]
      · simp [dget, h1, ih]

theorem dgetList_dappend {α β : Type} [DecidableEq α] (d : List (α × List β)) (k k' : α) (v : β) :
    dgetList (dappend d k v) k' =
      if k = k' then dgetList d k ++ [v] else dgetList d k' := by
  unfold dappend dgetList
  rw [dget_dset]
  by_cases h : k = k' <;> simp [h]

/-! ### Attribute parsing (source line 114)

`re.findall('([^=;]+)=([^=;\n]+)', attributes)` followed by `dict(...)`. -/

/-- Character class `[^=;]` of the first regex group. -/
def attrKeyChar (c : Char) : Bool := c ≠ '=' && c ≠ ';'

/-- Character class `[^=;\n]` of the second regex group. -/
def attrValChar (c : Char) : Bool := c ≠ '=' && c ≠ ';' && c ≠ '\n'

/-- Model of `re.findall` with the pattern above: at each position try to match a
maximal non-empty `[^=;]+` run, a literal `=`, and a maximal non-empty
`[^=;\n]+` run; on failure advance one character, on success resume after
the match.  (Backtracking inside the groups can never succeed because no
character of the first class equals `=`.)  The fuel is the input length. -/
def reFindKVAux : Nat → List Char → List (String × String)
  | 0, _ => []
  | _, [] => []
  | fuel + 1, c :: cs =>
    if attrKeyChar c then
      match (c :: cs).dropWhile attrKeyChar with
      | '=' :: r2 =>
        let v := r2.takeWhile attrValChar
        if v.isEmpty then reFindKVAux fuel cs
        else
          (String.mk ((c :: cs).takeWhile attrKeyChar), String.mk v) ::
            reFindKVAux fuel (r2.dropWhile attrValChar)
      | _ => reFindKVAux fuel cs
    else reFindKVAux fuel cs

/-- All `key=value` matches of the attribute column. -/
def reFindKV (s : String) : List (String × String) :=
  reFindKVAux s.toList.length s.toList

/-- Python `dict(pairs)`: insert every pair in order, later keys overwriting. -/
def pyDictOf (ps : List (String × String)) : List (String × String) :=
  ps.foldl (fun d p => dset d p.1 p.2) []

/-- Value of attribute `key` on the 9th column string `attrs`
(`dict(re.findall(...))[key]`, as an `Option`). -/
def attrLookup (attrs key : String) : Option String :=
  dget (pyDictOf (reFindKV attrs)) key

/-! ### Alignment data model (source lines 39-46, 60-84) -/

/-- One parsed alignment record
`[old_id, old_start, old_end, new_id, new_start, new_end]`. -/
structure AlignRec where
  old_id : String
  old_start : Int
  old_end : Int
  new_id : String
  new_start : Int
  new_end : Int
deriving DecidableEq, Repr

/-- Lookup `self.alignment_dict[oid]`: the records whose `old_id` is `oid`, in
input order (the `defaultdict(list)` built in `__init__`, lines 42-44). -/
def alignment_dict (al : List AlignRec) (oid : String) : List AlignRec :=
  al.filter (fun a => a.old_id = oid)

/-- Membership `tokens[0] in self.alignment_dict` (a key exists iff some record carried
that `old_id`). -/
def inAlignmentDict (al : List AlignRec) (oid : String) : Bool :=
  !(alignment_dict al oid).isEmpty

/-- The filter `filter(lambda m: m[1] < p and p <= m[2], mappings)` — the coordinate
coverage filter of source lines 162-163, used for both the start and the end
coordinate. -/
def startMappings (mappings : List AlignRec) (p : Int) : List AlignRec :=
  mappings.filter (fun m => m.old_start < p && p ≤ m.old_end)

/-- Disposition tags assigned to each line (source lines 33-37). -/
inductive Status where
  | header
  | keep
  | sequence_removed
  | position_removed
  | sequence_region
deriving DecidableEq, Repr

/-- Outcome of processing one feature line in `_update_features`. -/
inductive FeatureOutcome where
  | seqRemoved
  | posRemoved
  | mapped (newTokens : List String)
deriving DecidableEq, Repr

/-- Source lines 159-173: decide the fate of one feature line from its
tokens.  `tokens[0] in alignment_dict` distinguishes `seqRemoved` (line 174)
from the coordinate check; a non-unique start or end mapping yields
`posRemoved` (line 165); otherwise the tokens are rewritten:
`tokens[0] = mappings[0][3]`,
`tokens[3] = str(start - start_mapping[0][1] + start_mapping[0][4])`,
`tokens[4] = str(end - end_mapping[0][1] + end_mapping[0][4])`. -/
def classifyFeature (al : List AlignRec) (tokens : List String) :
    Except String FeatureOutcome :=
  match pyIndex tokens 0 with
  | .error e => .error e
  | .ok tok0 =>
    if inAlignmentDict al tok0 then
      match pyIndex tokens 3 with
      | .error e => .error e
      | .ok t3 =>
        match pyInt t3 with
        | .error e => .error e
        | .ok start =>
          match pyIndex tokens 4 with
          | .error e => .error e
          | .ok t4 =>
            match pyInt t4 with
            | .error e => .error e
            | .ok stop =>
              if (startMappings (alignment_dict al tok0) start).length ≠ 1 ∨
                  (startMappings (alignment_dict al tok0) stop).length ≠ 1 then
                .ok .posRemoved
              else
                match pyIndex (alignment_dict al tok0) 0 with
                | .error e => .error e
                | .ok m0 =>
                  match pyIndex (startMappings (alignment_dict al tok0) start) 0 with
                  | .error e => .error e
                  | .ok sm =>
                    match pyIndex (startMappings (alignment_dict al tok0) stop) 0 with
                    | .error e => .error e
                    | .ok em =>
                      .ok (.mapped
                        (((tokens.set 0 m0.new_id).set 3
                            (pyStr (start - sm.old_start + sm.new_start))).set 4
                          (pyStr (stop - em.old_start + em.new_start))))
    else .ok .seqRemoved

/-! ### Pass 1: `_find_root_features` (source lines 86-125) -/

/-- State of `_find_root_features`: `gff_line_root_list`,
`gff_root_line_dict`, `gff_id_line`, and the running line number. -/
structure FindRootState where
  rootList : List Nat
  rootLineDict : List (Nat × List Nat)
  idLine : List (String × Nat)
  curNum : Nat
deriving DecidableEq, Repr

def initFindRoot : FindRootState := ⟨[], [], [], 0⟩

/-- Lines 115-116: record the line number of a declared `ID` attribute
(overwriting any earlier declaration of the same id). -/
def idStep (st : FindRootState) (attrs : String) : FindRootState :=
  match attrLookup attrs "ID" with
  | some v => { st with idLine := dset st.idLine v st.curNum }
  | none => st

/-- The loop body of `_find_root_features`.  Blank lines are skipped without
a line number (line 100); `#` lines become their own singleton root (lines
103-105) and `##FASTA` stops the scan (line 110, `break` before the line
number is incremented); feature lines record `ID`, then look up `Parent`
(`KeyError` when undeclared) and inherit that line's recorded root, or root
at themselves (lines 111-123). -/
def findRootLoop : FindRootState → List String → Except String FindRootState
  | st, [] => .ok st
  | st, line :: rest =>
    if pyStrip line = "" then findRootLoop st rest
    else if pyFirstChar line = some '#' then
      if pyStrip line = "##FASTA" then
        .ok { st with rootList := st.rootList ++ [st.curNum],
                      rootLineDict := dappend st.rootLineDict st.curNum st.curNum }
      else
        findRootLoop
          { st with rootList := st.rootList ++ [st.curNum],
                    rootLineDict := dappend st.rootLineDict st.curNum st.curNum,
                    curNum := st.curNum + 1 } rest
    else
      match pyIndex (splitTab line) 8 with
      | .error e => .error e
      | .ok attrs =>
        match attrLookup attrs "Parent" with
        | some p =>
          match pyKeyE (dget (idStep st attrs).idLine p) with
          | .error e => .error e
          | .ok pl =>
            match pyIndex (idStep st attrs).rootList pl with
            | .error e => .error e
            | .ok r =>
              findRootLoop
                { idStep st attrs with
                    rootList := (idStep st attrs).rootList ++ [r],
                    rootLineDict := dappend (idStep st attrs).rootLineDict r st.curNum,
                    curNum := st.curNum + 1 } rest
        | none =>
          findRootLoop
            { idStep st attrs with
                rootList := (idStep st attrs).rootList ++ [st.curNum],
                rootLineDict :=
                  dappend (idStep st attrs).rootLineDict st.curNum st.curNum,
                curNum := st.curNum + 1 } rest

/-- The lines that receive a line number during the passes: blank lines are
skipped, everything from the first `##FASTA` marker on (exclusive of the
marker itself, which is still numbered by pass 1) is never reached. -/
def numberedLines : List String → List String
  | [] => []
  | line :: rest =>
    if pyStrip line = "" then numberedLines rest
    else if pyFirstChar line = some '#' then
      if pyStrip line = "##FASTA" then [line]
      else line :: numberedLines rest
    else line :: numberedLines rest

/-! ### Pass 2: `_update_features` (source lines 127-178) -/

/-- State of `_update_features`: `gff_line_status_dict`, `gff_line_list`,
`gff_converted_line_dict`, and the running line number. -/
structure UpdateState where
  statusMap : List (Nat × Status)
  lineList : List String
  convMap : List (Nat × String)
  curNum : Nat
deriving DecidableEq, Repr

def initUpdate : UpdateState := ⟨[], [], [], 0⟩

/-- The loop `for lc in gff_root_line_dict[root]: gff_line_status_dict[lc] = v`
(source lines 166-167 and 175-176); every member is overwritten with the
same value, so the iteration order is irrelevant. -/
def setAllStatus (d : List (Nat × Status)) (g : List Nat) (v : Status) :
    List (Nat × Status) :=
  g.foldl (fun d lc => dset d lc v) d

/-- The loop body of `_update_features` (lines 140-178).  `rootList` and
`rootDict` are the pass-1 results.  `#` lines store their text in the
converted map and are tagged `SEQUENCE_REGION` / `HEADER`, or stop the scan
at `##FASTA`; a feature line is processed only while its status is absent or
`KEEP`, and either rewritten (`KEEP`) or its whole root-group is overwritten
with `POSITION_REMOVED` / `SEQUENCE_REMOVED`. -/
def updateLoop (al : List AlignRec) (rootList : List Nat)
    (rootDict : List (Nat × List Nat)) :
    UpdateState → List String → Except String UpdateState
  | st, [] => .ok st
  | st, line :: rest =>
    if pyStrip line = "" then updateLoop al rootList rootDict st rest
    else if pyFirstChar line = some '#' then
      if strStarts (pyStrip line) "##sequence-region" then
        updateLoop al rootList rootDict
          { st with convMap := dset st.convMap st.curNum line,
                    statusMap := dset st.statusMap st.curNum .sequence_region,
                    lineList := st.lineList ++ [line],
                    curNum := st.curNum + 1 } rest
      else if pyStrip line = "##FASTA" then
        .ok { st with convMap := dset st.convMap st.curNum line }
      else
        updateLoop al rootList rootDict
          { st with convMap := dset st.convMap st.curNum line,
                    statusMap := dset st.statusMap st.curNum .header,
                    lineList := st.lineList ++ [line],
                    curNum := st.curNum + 1 } rest
    else if dget st.statusMap st.curNum = none ∨
            dget st.statusMap st.curNum = some .keep then
      match classifyFeature al (splitTab line) with
      | .error e => .error e
      | .ok (.mapped newTokens) =>
        updateLoop al rootList rootDict
          { st with statusMap := dset st.statusMap st.curNum .keep,
                    convMap := dset st.convMap st.curNum (joinTab newTokens),
                    lineList := st.lineList ++ [line],
                    curNum := st.curNum + 1 } rest
      | .ok .posRemoved =>
        match pyIndex rootList st.curNum with
        | .error e => .error e
        | .ok r =>
          updateLoop al rootList rootDict
            { st with statusMap :=
                        setAllStatus st.statusMap (dgetList rootDict r) .position_removed,
                      lineList := st.lineList ++ [line],
                      curNum := st.curNum + 1 } rest
      | .ok .seqRemoved =>
        match pyIndex rootList st.curNum with
        | .error e => .error e
        | .ok r =>
          updateLoop al rootList rootDict
            { st with statusMap :=
                        setAllStatus st.statusMap (dgetList rootDict r) .sequence_removed,
                      lineList := st.lineList ++ [line],
                      curNum := st.curNum + 1 } rest
    else
      updateLoop al rootList rootDict
        { st with lineList := st.lineList ++ [line], curNum := st.curNum + 1 } rest

/-! ### Pass 3: `_output_sequence_region` and `_output_features`
(source lines 180-229) -/

/-- The `new_start`/`new_end` values of all records of one `new_id`
(`list(chain(*[(a[4], a[5]) for a in alignments]))`, line 191; grouping the
sorted list by `a[3]` collects exactly the records with that `new_id`). -/
def regionPositions (al : List AlignRec) (nid : String) : List Int :=
  (al.filter (fun a => a.new_id = nid)).flatMap (fun a => [a.new_start, a.new_end])

/-- Entry `self.sequence_regions[nid]` (lines 189-194):
`'##sequence-region %s %d %d' % (new_id, min(pos) + 1, max(pos))`, defined
for exactly the `new_id`s occurring in the alignment list. -/
def sequence_regions (al : List AlignRec) (nid : String) : Option String :=
  match regionPositions al nid with
  | [] => none
  | p :: ps =>
    some ("##sequence-region " ++ nid ++ " " ++ pyStr (ps.foldl min p + 1) ++ " " ++
      pyStr (ps.foldl max p))

/-- One line written to the updated output file, tagged with the branch of
`_output_features` that wrote it (lines 216, 218, 221). -/
inductive OutLine where
  | region (id : String) (text : String)
  | keep (lc : Nat) (text : String)
  | header (lc : Nat) (text : String)
deriving DecidableEq, Repr

/-- The text payload of a written line. -/
def OutLine.text : OutLine → String
  | .region _ t => t
  | .keep _ t => t
  | .header _ t => t

/-- State of `_output_features`: the updated-file write trace, the
removed-file lines, `wrote_sequence_region`, and the two counters. -/
structure OutputState where
  trace : List OutLine
  removedLines : List String
  wrote : List String
  updatedCount : Nat
  removedCount : Nat
deriving DecidableEq, Repr

def initOutput : OutputState := ⟨[], [], [], 0, 0⟩

/-- The loop of `_output_features` (lines 212-227) over
`enumerate(gff_line_list)`: `KEEP` lines emit their region line first if its
target id is new, then the converted text; `HEADER` lines emit their stored
text; removed lines go verbatim to the removed file; `SEQUENCE_REGION`
lines emit nothing. -/
def outputLoop (al : List AlignRec) (sm : List (Nat × Status))
    (cm : List (Nat × String)) :
    OutputState → Nat → List String → Except String OutputState
  | ost, _, [] => .ok ost
  | ost, lc, line :: rest =>
    match pyKeyE (dget sm lc) with
    | .error e => .error e
    | .ok stt =>
      if stt = .keep then
        match pyKeyE (dget cm lc) with
        | .error e => .error e
        | .ok conv =>
          if (splitTab conv).headD "" ∈ ost.wrote then
            outputLoop al sm cm
              { ost with trace := ost.trace ++ [.keep lc conv],
                         updatedCount := ost.updatedCount + 1 } (lc + 1) rest
          else
            match pyKeyE (sequence_regions al ((splitTab conv).headD "")) with
            | .error e => .error e
            | .ok reg =>
              outputLoop al sm cm
                { ost with trace := ost.trace ++
                             [.region ((splitTab conv).headD "") reg, .keep lc conv],
                           wrote := ost.wrote ++ [(splitTab conv).headD ""],
                           updatedCount := ost.updatedCount + 1 } (lc + 1) rest
      else if stt = .header then
        match pyKeyE (dget cm lc) with
        | .error e => .error e
        | .ok conv =>
          outputLoop al sm cm
            { ost with trace := ost.trace ++ [.header lc conv] } (lc + 1) rest
      else if stt = .position_removed ∨ stt = .sequence_removed then
        outputLoop al sm cm
          { ost with removedLines := ost.removedLines ++ [line],
                     removedCount := ost.removedCount + 1 } (lc + 1) rest
      else outputLoop al sm cm ost (lc + 1) rest

/-- Method `GffUpdater.update` on one annotation file: pass 1, pass 2, pass 3. -/
def updateGff (al : List AlignRec) (lines : List String) :
    Except String (FindRootState × UpdateState × OutputState) :=
  match findRootLoop initFindRoot lines with
  | .error e => .error e
  | .ok p1 =>
    match updateLoop al p1.rootList p1.rootLineDict initUpdate lines with
    | .error e => .error e
    | .ok p2 =>
      match outputLoop al p2.statusMap p2.convMap initOutput 0 p2.lineList with
      | .error e => .error e
      | .ok p3 => .ok (p1, p2, p3)

/-- The updated output file: the texts of the written lines, in order. -/
def updatedFile (p3 : OutputState) : List String :=
  p3.trace.map OutLine.text

/-! ### Alignment file loading: `read_alignment_list_tsv` (lines 60-84) -/

/-- A Python value produced by applying `tsv_format` converters. -/
inductive PyVal where
  | s (v : String)
  | i (v : Int)
deriving DecidableEq, Repr

/-- One converter of `tsv_format = [str, int, int, str, int, int]`. -/
inductive FieldTy where
  | str
  | int
deriving DecidableEq, Repr

def tsv_format : List FieldTy := [.str, .int, .int, .str, .int, .int]

/-- Apply one converter: `str` always succeeds, `int` may raise
`ValueError`. -/
def applyField (f : FieldTy) (t : String) : Except String PyVal :=
  match f with
  | .str => .ok (.s t)
  | .int =>
    match pyInt t with
    | .error e => .error e
    | .ok n => .ok (.i n)

/-- `[f(t) for f, t in zip(tsv_format, line.split('\t'))]`: Python `zip`
truncates to the shorter list, so neither a short nor a long line is an
error by itself. -/
def zipApply : List FieldTy → List String → Except String (List PyVal)
  | _, [] => .ok []
  | [], _ => .ok []
  | f :: fs, t :: ts =>
    match applyField f t with
    | .error e => .error e
    | .ok v =>
      match zipApply fs ts with
      | .error e => .error e
      | .ok vs => .ok (v :: vs)

/-- Parse one alignment input line (source line 76). -/
def parseAlignLine (line : String) : Except String (List PyVal) :=
  zipApply tsv_format (splitTab line)

/-- Parse every line of the alignment source in order, stopping at the
first error. -/
def parseAlignLines : List String → Except String (List (List PyVal))
  | [] => .ok []
  | l :: rest =>
    match parseAlignLine l with
    | .error e => .error e
    | .ok r =>
      match parseAlignLines rest with
      | .error e => .error e
      | .ok rs => .ok (r :: rs)

/-- An already-open input stream: an object with a `name` attribute and
iterable lines. -/
structure PyFile where
  name : String
  lines : List String
deriving DecidableEq, Repr

/-- The argument of `read_alignment_list_tsv`: a file path string or an
open stream. -/
inductive AlignSource where
  | path (p : String)
  | stream (f : PyFile)
deriving DecidableEq, Repr

/-- `GffUpdater.read_alignment_list_tsv` (source lines 60-84).  The result
pairs the parsed record list with a flag telling whether the function closed
the caller's stream.

In the `isinstance(alignment_list_tsv_file, str)` branch the source first
executes
`logging.info('Reading alignment data from: %s...', alignment_list_tsv_file_f.name)`
(line 71) while `alignment_list_tsv_file_f` is still the path *string*
(assigned at line 69, before `open` at line 72); a Python `str` has no
`name` attribute, so the attribute access raises `AttributeError` before the
file is ever opened.  `fs` models the file system (path to file contents)
that the never-reached `open` would have consulted.  In the stream branch
the lines are read to completion, the stream's valid `.name` is logged, and
the stream is not closed (lines 78-81: `close` runs only in the `str`
branch). -/
def read_alignment_list_tsv (_fs : List (String × PyFile)) (src : AlignSource) :
    Except String (List (List PyVal) × Bool) :=
  match src with
  | .path _ => .error "AttributeError"
  | .stream f =>
    match parseAlignLines f.lines with
    | .error e => .error e
    | .ok rs => .ok (rs, false)

/-! ### Helper observers used only in theorem statements -/

/-- The attribute value `key` of a physical line (column 9 of the tab
split), `none` when the line has fewer than nine columns. -/
def attrOfLine (line key : String) : Option String :=
  match (splitTab line).get? 8 with
  | none => none
  | some attrs => attrLookup attrs key

/-- The `ID` attribute declared by a line; `none` for comment lines. -/
def declaredID (line : String) : Option String :=
  if pyFirstChar line = some '#' then none else attrOfLine line "ID"

/-- The index of the last line among indices `0..k` of `ns` whose `ID`
attribute equals `x` — the declaration that `gff_id_line[x]` holds when
line `k` is processed (the map is overwritten on each redeclaration). -/
def lastDeclarer (ns : List String) (x : String) (k : Nat) : Option Nat :=
  match ns with
  | [] => none
  | l :: rest =>
    match k with
    | 0 => if declaredID l = some x then some 0 else none
    | k' + 1 =>
      match (lastDeclarer rest x k').map (· + 1) with
      | some t => some t
      | none => if declaredID l = some x then some 0 else none

/-! ### Small list lemmas -/

theorem length_eq_one_of_get? {α : Type} {l : List α} {a : α}
    (h1 : l.length = 1) (h0 : l.get? 0 = some a) : l = [a] := by
  match l, h1 with
  | [x], _ => simp only [List.get?] at h0; injection h0 with h; rw [h]

/-! ### Claim theorems -/

/-- Claim C2: the coverage filter of source lines 162-163 keeps record `m`
for coordinate `p` iff `m.old_start < p` and `p ≤ m.old_end`; in particular
`p = m.old_start` is never kept.  (The further corollary of the claim, that
`p = m.old_end` is always kept, is settled separately; see
`C2_counterexample`.) -/
theorem C2_coverage_rule (mappings : List AlignRec) (p : Int) (m : AlignRec) :
    (m ∈ startMappings mappings p ↔
      m ∈ mappings ∧ (m.old_start < p ∧ p ≤ m.old_end)) ∧
    (p = m.old_start → m ∉ startMappings mappings p) ∧
    (p = m.old_end → m.old_start < m.old_end → m ∈ mappings →
      m ∈ startMappings mappings p) := by
  refine ⟨?_, ?_, ?_⟩
  · simp [startMappings, List.mem_filter, decide_eq_true_iff]
  · intro hp hmem
    rw [startMappings, List.mem_filter] at hmem
    rcases hmem with ⟨-, hcond⟩
    simp only [Bool.and_eq_true, decide_eq_true_iff] at hcond
    omega
  · intro hp hlt hmem
    rw [startMappings, List.mem_filter]
    refine ⟨hmem, ?_⟩
    simp only [Bool.and_eq_true, decide_eq_true_iff]
    omega

/-- Claim C2 counterexample: for the zero-length record
`("chr1", 100, 100, "n", 0, 0)` the coordinate `p = 100` equals `old_end`,
yet the filter does not keep the record (`100 < 100` fails), so
"`p == m.old_end` is always covered by `m`" is false for degenerate records
with `old_end ≤ old_start`. -/
theorem C2_counterexample :
    (100 : Int) = (AlignRec.mk "chr1" 100 100 "n" 0 0).old_end ∧
    (AlignRec.mk "chr1" 100 100 "n" 0 0) ∈ [AlignRec.mk "chr1" 100 100 "n" 0 0] ∧
    (AlignRec.mk "chr1" 100 100 "n" 0 0) ∉
      startMappings [AlignRec.mk "chr1" 100 100 "n" 0 0] 100 := by
  refine ⟨rfl, by simp, ?_⟩
  intro h
  rw [startMappings, List.mem_filter] at h
  rcases h with ⟨-, hcond⟩
  simp only [Bool.and_eq_true, decide_eq_true_iff] at hcond
  omega

/-- Claim C2 witness: the theorem applied at a concrete covered input. -/
theorem C2_coverage_rule_witness :
    (AlignRec.mk "chr1" 100 200 "n" 0 100) ∈
      startMappings [AlignRec.mk "chr1" 100 200 "n" 0 100] 200 :=
  (C2_coverage_rule [AlignRec.mk "chr1" 100 200 "n" 0 100] 200
    (AlignRec.mk "chr1" 100 200 "n" 0 100)).2.2 rfl (by decide) (by simp)

theorem pyIndex_ok_iff {α : Type} {l : List α} {i : Nat} {a : α} :
    pyIndex l i = .ok a ↔ l.get? i = some a := by
  unfold pyIndex
  cases h : l.get? i <;> simp

/-- Inversion of a successful rewrite in `classifyFeature`: the exact shapes
of all intermediate values of source lines 159-173. -/
theorem classifyFeature_mapped_inv {al : List AlignRec} {tokens newTokens : List String}
    (hc : classifyFeature al tokens = .ok (.mapped newTokens)) :
    ∃ tok0 t3 start t4 stop m0 sm em,
      pyIndex tokens 0 = .ok tok0 ∧
      inAlignmentDict al tok0 = true ∧
      pyIndex tokens 3 = .ok t3 ∧ pyInt t3 = .ok start ∧
      pyIndex tokens 4 = .ok t4 ∧ pyInt t4 = .ok stop ∧
      startMappings (alignment_dict al tok0) start = [sm] ∧
      startMappings (alignment_dict al tok0) stop = [em] ∧
      pyIndex (alignment_dict al tok0) 0 = .ok m0 ∧
      newTokens = ((tokens.set 0 m0.new_id).set 3
          (pyStr (start - sm.old_start + sm.new_start))).set 4
        (pyStr (stop - em.old_start + em.new_start)) := by
  unfold classifyFeature at hc
  split at hc
  · simp at hc
  next tok0 h0 =>
  split at hc
  case isFalse hin => simp at hc
  case isTrue hin =>
  split at hc
  · simp at hc
  next t3 h3 =>
  split at hc
  · simp at hc
  next start hs =>
  split at hc
  · simp at hc
  next t4 h4 =>
  split at hc
  · simp at hc
  next stop he =>
  split at hc
  case isTrue hlen => simp at hc
  case isFalse hlen =>
  push_neg at hlen
  obtain ⟨hlen1, hlen2⟩ := hlen
  split at hc
  · simp at hc
  next m0 hm0 =>
  split at hc
  · simp at hc
  next sm hsm =>
  split at hc
  · simp at hc
  next em hem =>
  simp only [Except.ok.injEq, FeatureOutcome.mapped.injEq] at hc
  refine ⟨tok0, t3, start, t4, stop, m0, sm, em, h0, ?_, h3, hs, h4, he, ?_, ?_, hm0, hc.symm⟩
  · exact hin
  · exact length_eq_one_of_get? hlen1 (pyIndex_ok_iff.mp hsm)
  · exact length_eq_one_of_get? hlen2 (pyIndex_ok_iff.mp hem)

/-- Alignment table of the C1 counterexample: two blocks of `chr1`, mapped
to different new ids; the block covering the feature is the second one. -/
def c1align : List AlignRec :=
  [⟨"chr1", 0, 50, "A", 0, 50⟩, ⟨"chr1", 100, 200, "B", 1000, 1100⟩]

def c1file : List String := ["chr1\t.\tgene\t150\t180\t.\t+\t.\tID=g1"]

/-- Claim C1 counterexample: with two alignment records for `chr1`, the
feature `150..180` is covered (start and end) only by the second record,
whose `new_id` is `"B"`; yet the rewritten line's column 1 is `"A"`, the
`new_id` of the *first* record of `alignment_dict["chr1"]`
(`tokens[0] = mappings[0][3]`, source line 169), not of the start-side
match.  So the rewritten sequence id does not equal the start-covering
record's `new_id`. -/
theorem C1_counterexample :
    (updateGff c1align c1file).map (fun r => dget r.2.1.convMap 0) =
      .ok (some "A\t.\tgene\t1050\t1080\t.\t+\t.\tID=g1") ∧
    startMappings (alignment_dict c1align "chr1") 150 =
      [⟨"chr1", 100, 200, "B", 1000, 1100⟩] ∧
    startMappings (alignment_dict c1align "chr1") 180 =
      [⟨"chr1", 100, 200, "B", 1000, 1100⟩] ∧
    (AlignRec.mk "chr1" 100 200 "B" 1000 1100).new_id = "B" ∧
    (splitTab "A\t.\tgene\t1050\t1080\t.\t+\t.\tID=g1").get? 0 = some "A" ∧
    ("A" : String) ≠ "B" := by
  exact ⟨by rfl, by rfl, by rfl, rfl, by rfl, by decide⟩

/-- Claim C1 (amended): when a feature line is successfully rewritten, its
new column 1 is the `new_id` of the *first* record of its old id's
alignment-record list (`mappings[0][3]`, source line 169) — which
coincides with the start-side match's `new_id` only when, e.g., the old id
has a single record. -/
theorem C1_new_id_from_first_record (al : List AlignRec)
    (tokens newTokens : List String) (tok0 : String) (m0 : AlignRec)
    (hc : classifyFeature al tokens = .ok (.mapped newTokens))
    (h0 : pyIndex tokens 0 = .ok tok0)
    (hm : pyIndex (alignment_dict al tok0) 0 = .ok m0) :
    newTokens.get? 0 = some m0.new_id := by
  obtain ⟨tok0', t3, start, t4, stop, m0', sm, em, h0', -, -, -, -, -, -, -, hm', hnt⟩ :=
    classifyFeature_mapped_inv hc
  rw [h0] at h0'
  injection h0' with h0e
  subst h0e
  rw [hm] at hm'
  injection hm' with hme
  subst hme
  subst hnt
  have hlen : 0 < tokens.length := by
    have := pyIndex_ok_iff.mp h0
    exact List.get?_eq_some.mp this |>.choose
  rw [List.get?_set_ne _ _ (by omega), List.get?_set_ne _ _ (by omega),
    List.get?_set_eq_of_lt _ (by simpa using hlen)]

/-- Claim C1 amended-theorem witness: the single-record case, where the
first record is also the start-side match. -/
theorem C1_new_id_from_first_record_witness :
    (splitTab "chr1_new\t.\tgene\t1050\t1080\t.\t+\t.\tID=g1").get? 0 =
      some "chr1_new" :=
  C1_new_id_from_first_record [⟨"chr1", 100, 200, "chr1_new", 1000, 1100⟩]
    (splitTab "chr1\t.\tgene\t150\t180\t.\t+\t.\tID=g1")
    (splitTab "chr1_new\t.\tgene\t1050\t1080\t.\t+\t.\tID=g1")
    "chr1" ⟨"chr1", 100, 200, "chr1_new", 1000, 1100⟩ (by rfl) (by rfl) (by rfl)

def c4align : List AlignRec := [⟨"chr1", 100, 200, "chr1_new", 1000, 1100⟩]

def c4file : List String := ["chr1\t.\tgene\t150\t180\t.\t+\t.\tID=g1"]

/-- Claim C4: end-to-end, the single alignment record
`("chr1", 100, 200, "chr1_new", 1000, 1100)` maps the feature line
`chr1 . gene 150 180 . + . ID=g1` to `chr1_new . gene 1050 1080 . + . ID=g1`,
preceded once by `##sequence-region chr1_new 1001 1100`; and in general a
successful rewrite sets
`new_start = start - start_mapping.old_start + start_mapping.new_start` and
`new_end = end - end_mapping.old_start + end_mapping.new_start`
(source lines 170-171). -/
theorem C4_end_to_end_example (al : List AlignRec)
    (tokens newTokens : List String) (tok0 t3 t4 : String)
    (start stop : Int) (sm em : AlignRec)
    (hc : classifyFeature al tokens = .ok (.mapped newTokens))
    (h0 : pyIndex tokens 0 = .ok tok0)
    (h3 : pyIndex tokens 3 = .ok t3) (hs : pyInt t3 = .ok start)
    (h4 : pyIndex tokens 4 = .ok t4) (he : pyInt t4 = .ok stop)
    (hsm : startMappings (alignment_dict al tok0) start = [sm])
    (hem : startMappings (alignment_dict al tok0) stop = [em]) :
    ((updateGff c4align c4file).map (fun r => updatedFile r.2.2) =
      .ok ["##sequence-region chr1_new 1001 1100",
           "chr1_new\t.\tgene\t1050\t1080\t.\t+\t.\tID=g1"]) ∧
    newTokens.get? 3 = some (pyStr (start - sm.old_start + sm.new_start)) ∧
    newTokens.get? 4 = some (pyStr (stop - em.old_start + em.new_start)) := by
  obtain ⟨tok0', t3', start', t4', stop', m0', sm', em',
    h0', -, h3', hs', h4', he', hsm', hem', hm', hnt⟩ :=
    classifyFeature_mapped_inv hc
  rw [h0] at h0'; injection h0' with h0e; subst h0e
  rw [h3] at h3'; injection h3' with h3e; subst h3e
  rw [hs] at hs'; injection hs' with hse; subst hse
  rw [h4] at h4'; injection h4' with h4e; subst h4e
  rw [he] at he'; injection he' with hee; subst hee
  rw [hsm] at hsm'; injection hsm' with hsme1 hsme2; subst hsme1
  rw [hem] at hem'; injection hem' with heme1 heme2; subst heme1
  subst hnt
  have hl3 : 3 < tokens.length :=
    List.get?_eq_some.mp (pyIndex_ok_iff.mp h3) |>.choose
  have hl4 : 4 < tokens.length :=
    List.get?_eq_some.mp (pyIndex_ok_iff.mp h4) |>.choose
  refine ⟨by rfl, ?_, ?_⟩
  · rw [List.get?_set_ne _ _ (by omega),
      List.get?_set_eq_of_lt _ (by simpa using hl3)]
  · rw [List.get?_set_eq_of_lt _ (by simpa using hl4)]

/-- Claim C4 witness: the theorem applied at its own concrete example. -/
theorem C4_end_to_end_example_witness :
    (splitTab "chr1_new\t.\tgene\t1050\t1080\t.\t+\t.\tID=g1").get? 3 =
      some (pyStr (150 - 100 + 1000)) :=
  (C4_end_to_end_example c4align
    (splitTab "chr1\t.\tgene\t150\t180\t.\t+\t.\tID=g1")
    (splitTab "chr1_new\t.\tgene\t1050\t1080\t.\t+\t.\tID=g1")
    "chr1" "150" "180" 150 180
    ⟨"chr1", 100, 200, "chr1_new", 1000, 1100⟩
    ⟨"chr1", 100, 200, "chr1_new", 1000, 1100⟩
    (by rfl) (by rfl) (by rfl) (by rfl) (by rfl) (by rfl) (by rfl) (by rfl)).2.1

theorem zipApply_ok_length :
    ∀ (fs : List FieldTy) (ts : List String) (rs : List PyVal),
      zipApply fs ts = .ok rs → rs.length = min fs.length ts.length := by
  intro fs
  induction fs with
  | nil =>
    intro ts rs h
    cases ts <;> simp [zipApply] at h <;> simp [← h]
  | cons f fs ih =>
    intro ts rs h
    cases ts with
    | nil => simp [zipApply] at h; simp [← h]
    | cons t ts =>
      unfold zipApply at h
      cases ha : applyField f t with
      | error e => rw [ha] at h; simp at h
      | ok v =>
        rw [ha] at h
        cases hz : zipApply fs ts with
        | error e => rw [hz] at h; simp at h
        | ok vs =>
          rw [hz] at h
          simp only [Except.ok.injEq] at h
          subst h
          have := ih ts vs hz
          simp [List.length_cons, this]
          omega

theorem zipApply_error_of_bad_field :
    ∀ (fs : List FieldTy) (ts : List String) (k : Nat) (f : FieldTy) (t : String),
      fs.get? k = some f → ts.get? k = some t →
      (∀ v, applyField f t ≠ .ok v) → ∃ e, zipApply fs ts = .error e := by
  intro fs
  induction fs with
  | nil => intro ts k f t hf _ _; simp at hf
  | cons f0 fs ih =>
    intro ts k f t hf ht hbad
    cases ts with
    | nil => simp at ht
    | cons t0 ts =>
      cases k with
      | zero =>
        simp only [List.get?] at hf ht
        injection hf with hf; injection ht with ht
        subst hf; subst ht
        cases ha : applyField f0 t0 with
        | error e => exact ⟨e, by unfold zipApply; rw [ha]⟩
        | ok v => exact absurd ha (hbad v)
      | succ k =>
        simp only [List.get?] at hf ht
        obtain ⟨e, he⟩ := ih ts k f t hf ht hbad
        cases ha : applyField f0 t0 with
        | error e0 => exact ⟨e0, by unfold zipApply; rw [ha]⟩
        | ok v => exact ⟨e, by unfold zipApply; rw [ha, he]⟩

/-- Claim C9 counterexample: a 3-field line loads without error as a
silently truncated record, and a 7-field line loads with the extra field
ignored — the wrong field count is not a fatal error (`zip` truncates,
source line 76). -/
theorem C9_counterexample :
    parseAlignLine "a\t1\t2" = .ok [.s "a", .i 1, .i 2] ∧
    (splitTab "a\t1\t2").length = 3 ∧
    parseAlignLine "a\t1\t2\tb\t3\t4\tzzz" =
      .ok [.s "a", .i 1, .i 2, .s "b", .i 3, .i 4] ∧
    (splitTab "a\t1\t2\tb\t3\t4\tzzz").length = 7 ∧
    (3 : Nat) ≠ 6 ∧ (7 : Nat) ≠ 6 := by
  exact ⟨by rfl, by rfl, by rfl, by rfl, by decide, by decide⟩

/-- Claim C9 (amended): a non-integer value in a coordinate position that
`zip` actually pairs with an `int` converter makes the load fail with
`ValueError`; but a wrong field count alone is never an error — a short
line yields a truncated record of `min 6 n` fields and extra fields beyond
the sixth are ignored. -/
theorem C9_malformed_records (line : String) :
    (∀ rs, parseAlignLine line = .ok rs →
      rs.length = min 6 (splitTab line).length) ∧
    (∀ k fk, (splitTab line).get? k = some fk → tsv_format.get? k = some .int →
      pyInt fk = .error "ValueError" → ∃ e, parseAlignLine line = .error e) := by
  constructor
  · intro rs h
    have := zipApply_ok_length tsv_format (splitTab line) rs h
    simpa [tsv_format] using this
  · intro k fk hk hfmt hbad
    refine zipApply_error_of_bad_field tsv_format (splitTab line) k .int fk hfmt hk ?_
    intro v hv
    unfold applyField at hv
    rw [hbad] at hv
    simp at hv

/-- Claim C9 amended-theorem witness: a concrete line with a non-integer in
the third (coordinate) position fails to load. -/
theorem C9_malformed_records_witness :
    ∃ e, parseAlignLine "a\t1\tx\tb\t3\t4" = .error e :=
  (C9_malformed_records "a\t1\tx\tb\t3\t4").2 2 "x" (by rfl) (by rfl) (by rfl)

def c8stream : PyFile := ⟨"<stdin>", ["chr1\t0\t100\tchr1_new\t0\t100"]⟩

def c8fs : List (String × PyFile) :=
  [("alignments.tsv", ⟨"alignments.tsv", ["chr1\t0\t100\tchr1_new\t0\t100"]⟩)]

/-- Claim C8: the loader accepts an open stream (read to completion, left
open), but with a file-path argument it raises `AttributeError` before
opening the file, because source line 71 evaluates
`alignment_list_tsv_file_f.name` while that variable is still the path
string (the `open` call is only at line 72) — so the documented path mode
can never succeed. -/
theorem C8_path_branch_crashes :
    read_alignment_list_tsv c8fs (.stream c8stream) =
      .ok ([[.s "chr1", .i 0, .i 100, .s "chr1_new", .i 0, .i 100]], false) ∧
    read_alignment_list_tsv c8fs (.path "alignments.tsv") =
      .error "AttributeError" ∧
    dget c8fs "alignments.tsv" ≠ none := by
  exact ⟨by rfl, rfl, by decide⟩

/-! ### Pass-1 lemmas -/

theorem numberedLines_cons_blank {line : String} (rest : List String)
    (h : pyStrip line = "") : numberedLines (line :: rest) = numberedLines rest := by
  conv_lhs => rw [numberedLines.eq_def]
  simp [h]

theorem numberedLines_cons_header {line : String} (rest : List String)
    (h1 : ¬ pyStrip line = "") (h2 : pyFirstChar line = some '#')
    (h3 : ¬ pyStrip line = "##FASTA") :
    numberedLines (line :: rest) = line :: numberedLines rest := by
  conv_lhs => rw [numberedLines.eq_def]
  simp [h1, h2, h3]

theorem numberedLines_cons_fasta {line : String} (rest : List String)
    (h1 : ¬ pyStrip line = "") (h2 : pyFirstChar line = some '#')
    (h3 : pyStrip line = "##FASTA") :
    numberedLines (line :: rest) = [line] := by
  rw [numberedLines.eq_def]
  simp [h1, h2, h3]

theorem numberedLines_cons_feature {line : String} (rest : List String)
    (h1 : ¬ pyStrip line = "") (h2 : ¬ pyFirstChar line = some '#') :
    numberedLines (line :: rest) = line :: numberedLines rest := by
  conv_lhs => rw [numberedLines.eq_def]
  simp [h1, h2]

theorem idStep_rootList (st : FindRootState) (attrs : String) :
    (idStep st attrs).rootList = st.rootList := by
  unfold idStep; split <;> rfl

theorem idStep_rootLineDict (st : FindRootState) (attrs : String) :
    (idStep st attrs).rootLineDict = st.rootLineDict := by
  unfold idStep; split <;> rfl

theorem idStep_curNum (st : FindRootState) (attrs : String) :
    (idStep st attrs).curNum = st.curNum := by
  unfold idStep; split <;> rfl

theorem idStep_idLine_dget (st : FindRootState) (attrs x : String) :
    dget (idStep st attrs).idLine x =
      if attrLookup attrs "ID" = some x then some st.curNum
      else dget st.idLine x := by
  unfold idStep
  cases h : attrLookup attrs "ID" with
  | none => simp [h]
  | some v =>
    simp only
    rw [dget_dset]
    by_cases hv : v = x
    · subst hv; simp [h]
    · simp only [if_neg hv]
      rw [if_neg]
      intro hcon
      injection hcon with hcon
      exact hv hcon

/-- Once recorded, a root-list entry is never changed by the rest of the
scan (the list is append-only). -/
theorem findRootLoop_rootList_pres :
    ∀ (lines : List String) (st stF : FindRootState),
      findRootLoop st lines = .ok stF →
      ∀ i, i < st.rootList.length → stF.rootList.get? i = st.rootList.get? i := by
  intro lines
  induction lines with
  | nil =>
    intro st stF h i hi
    unfold findRootLoop at h
    injection h with h
    rw [h]
  | cons line rest ih =>
    intro st stF h i hi
    unfold findRootLoop at h
    split at h
    · exact ih st stF h i hi
    · split at h
      · split at h
        · -- FASTA: returns the extended state
          injection h with h
          rw [← h]
          simp only
          rw [List.get?_append hi]
        · -- header, continue
          have hrec := ih _ stF h i (by simp; omega)
          rw [hrec]
          simp only
          rw [List.get?_append hi]
      · -- feature line
        split at h
        · exact absurd h (by simp)
        next attrs hattrs =>
        split at h
        next p hp =>
          split at h
          · exact absurd h (by simp)
          next pl hpl =>
          split at h
          · exact absurd h (by simp)
          next r hr =>
          have hrec := ih _ stF h i (by simp [idStep_rootList]; omega)
          rw [hrec]
          simp only [idStep_rootList]
          rw [List.get?_append hi]
        next hp =>
          have hrec := ih _ stF h i (by simp [idStep_rootList]; omega)
          rw [hrec]
          simp only [idStep_rootList]
          rw [List.get?_append hi]

theorem pyKeyE_ok_iff {α : Type} {v : Option α} {a : α} :
    pyKeyE v = .ok a ↔ v = some a := by
  unfold pyKeyE
  cases v <;> simp

theorem lastDeclarer_cons_zero (l : String) (rest : List String) (x : String) :
    lastDeclarer (l :: rest) x 0 =
      if declaredID l = some x then some 0 else none := rfl

theorem lastDeclarer_cons_succ (l : String) (rest : List String) (x : String) (k : Nat) :
    lastDeclarer (l :: rest) x (k + 1) =
      match (lastDeclarer rest x k).map (· + 1) with
      | some t => some t
      | none => if declaredID l = some x then some 0 else none := rfl

theorem attrOfLine_eq {line attrs : String}
    (h : pyIndex (splitTab line) 8 = .ok attrs) (key : String) :
    attrOfLine line key = attrLookup attrs key := by
  unfold attrOfLine
  rw [pyIndex_ok_iff.mp h]

theorem declaredID_eq {line attrs : String}
    (hh : ¬ pyFirstChar line = some '#')
    (h : pyIndex (splitTab line) 8 = .ok attrs) :
    declaredID line = attrLookup attrs "ID" := by
  unfold declaredID
  rw [if_neg hh, attrOfLine_eq h]

theorem get?_concat_len {α : Type} (l : List α) (a : α) :
    (l ++ [a]).get? l.length = some a := by
  induction l with
  | nil => rfl
  | cons x xs ih => simpa using ih

/-- Core of claim C10: during `_find_root_features`, a feature line at
numbered position `k` carrying `Parent=x` is assigned the root recorded for
the line that `gff_id_line[x]` points at when line `k` is reached: the last
declaration of `ID=x` at position `j ≤ k` (or, generalized over a partial
run, the declaration inherited from the start state if no processed line
declares `x`). -/
theorem findRootLoop_parent_inherits :
    ∀ (lines : List String) (st stF : FindRootState),
      findRootLoop st lines = .ok stF →
      st.curNum = st.rootList.length →
      ∀ (k : Nat) (lk x : String) (t : Nat),
        (numberedLines lines).get? k = some lk →
        ¬ pyFirstChar lk = some '#' →
        attrOfLine lk "Parent" = some x →
        (match lastDeclarer (numberedLines lines) x k with
         | some j => t = st.curNum + j
         | none => dget st.idLine x = some t) →
        stF.rootList.get? (st.curNum + k) = stF.rootList.get? t := by
  intro lines
  induction lines with
  | nil =>
    intro st stF h hcur k lk x t hk hhdr hpar hlast
    simp [numberedLines] at hk
  | cons line rest ih =>
    intro st stF h hcur k lk x t hk hhdr hpar hlast
    unfold findRootLoop at h
    split at h
    case isTrue hblank =>
      rw [numberedLines_cons_blank rest hblank] at hk hlast
      exact ih st stF h hcur k lk x t hk hhdr hpar hlast
    case isFalse hblank =>
    split at h
    case isTrue hhash =>
      split at h
      case isTrue hfasta =>
        rw [numberedLines_cons_fasta rest hblank hhash hfasta] at hk
        cases k with
        | zero =>
          simp only [List.get?] at hk
          injection hk with hk
          subst hk
          exact absurd hhash hhdr
        | succ k => simp [List.get?] at hk
      case isFalse hfasta =>
        rw [numberedLines_cons_header rest hblank hhash hfasta] at hk hlast
        cases k with
        | zero =>
          simp only [List.get?] at hk
          injection hk with hk
          subst hk
          exact absurd hhash hhdr
        | succ k =>
          simp only [List.get?] at hk
          rw [lastDeclarer_cons_succ] at hlast
          have harith : st.curNum + (k + 1) = st.curNum + 1 + k := by omega
          rw [harith]
          cases hld : lastDeclarer (numberedLines rest) x k with
          | some j =>
            rw [hld] at hlast
            simp only [Option.map_some'] at hlast
            refine ih _ stF h (by simp; omega) k lk x t hk hhdr hpar ?_
            rw [hld]
            simp only
            omega
          | none =>
            rw [hld] at hlast
            simp only [Option.map_none'] at hlast
            have hdecl : declaredID line = none := by
              unfold declaredID
              rw [if_pos hhash]
            rw [hdecl, if_neg (by simp : ¬ (none : Option String) = some x)] at hlast
            have hlast2 : dget st.idLine x = some t := hlast
            refine ih _ stF h (by simp; omega) k lk x t hk hhdr hpar ?_
            rw [hld]
            simpa using hlast2
    case isFalse hhash =>
      split at h
      · exact absurd h (by simp)
      next attrs hattrs =>
      rw [numberedLines_cons_feature rest hblank hhash] at hk hlast
      have hdecl : declaredID line = attrLookup attrs "ID" := declaredID_eq hhash hattrs
      split at h
      next p hp =>
        split at h
        · exact absurd h (by simp)
        next pl hpl =>
        split at h
        · exact absurd h (by simp)
        next r hr =>
        have hplv : dget (idStep st attrs).idLine p = some pl := pyKeyE_ok_iff.mp hpl
        have hrv : st.rootList.get? pl = some r := by
          have := pyIndex_ok_iff.mp hr
          rwa [idStep_rootList] at this
        have hpllen : pl < st.rootList.length := by
          have := List.get?_eq_some.mp hrv
          exact this.choose
        have hcur2 : st.curNum + 1 = (st.rootList ++ [r]).length := by
          simp; omega
        -- the state passed to the recursive call
        have hpres := findRootLoop_rootList_pres rest _ stF h
        cases k with
        | zero =>
          simp only [List.get?] at hk
          injection hk with hk
          subst hk
          rw [lastDeclarer_cons_zero] at hlast
          rw [attrOfLine_eq hattrs] at hpar
          rw [hpar] at hp
          injection hp with hp
          subst hp
          have hget_cur : stF.rootList.get? st.curNum = some r := by
            have := hpres st.curNum (by simp [idStep_rootList]; omega)
            rw [this]
            simp only [idStep_rootList]
            rw [hcur]
            exact get?_concat_len st.rootList r
          by_cases hidx : declaredID line = some x
          · rw [if_pos hidx] at hlast
            simp only at hlast
            subst hlast
            simp
          · rw [if_neg hidx] at hlast
            rw [hdecl] at hidx
            rw [idStep_idLine_dget, if_neg hidx] at hplv
            rw [hplv] at hlast
            injection hlast with hlast
            subst hlast
            have hget_t : stF.rootList.get? pl = some r := by
              have := hpres pl (by simp [idStep_rootList]; omega)
              rw [this]
              simp only [idStep_rootList]
              rw [List.get?_append hpllen]
              exact hrv
            rw [Nat.add_zero, hget_cur, hget_t]
        | succ k =>
          simp only [List.get?] at hk
          rw [lastDeclarer_cons_succ] at hlast
          have harith : st.curNum + (k + 1) = st.curNum + 1 + k := by omega
          rw [harith]
          cases hld : lastDeclarer (numberedLines rest) x k with
          | some j =>
            rw [hld] at hlast
            simp only [Option.map_some'] at hlast
            refine ih _ stF h (by simp [idStep_rootList]; omega) k lk x t hk hhdr hpar ?_
            rw [hld]
            simp only [idStep_curNum]
            omega
          | none =>
            rw [hld] at hlast
            simp only [Option.map_none'] at hlast
            refine ih _ stF h (by simp [idStep_rootList]; omega) k lk x t hk hhdr hpar ?_
            rw [hld]
            simp only
            by_cases hidx : declaredID line = some x
            · rw [if_pos hidx] at hlast
              simp only at hlast
              subst hlast
              rw [hdecl] at hidx
              rw [idStep_idLine_dget, if_pos hidx]
              simp
            · rw [if_neg hidx] at hlast
              rw [hdecl] at hidx
              rw [idStep_idLine_dget, if_neg hidx]
              exact hlast
      next hp =>
        cases k with
        | zero =>
          simp only [List.get?] at hk
          injection hk with hk
          subst hk
          rw [attrOfLine_eq hattrs] at hpar
          rw [hpar] at hp
          simp at hp
        | succ k =>
          simp only [List.get?] at hk
          rw [lastDeclarer_cons_succ] at hlast
          have harith : st.curNum + (k + 1) = st.curNum + 1 + k := by omega
          rw [harith]
          cases hld : lastDeclarer (numberedLines rest) x k with
          | some j =>
            rw [hld] at hlast
            simp only [Option.map_some'] at hlast
            refine ih _ stF h (by simp [idStep_rootList]; omega) k lk x t hk hhdr hpar ?_
            rw [hld]
            simp only [idStep_curNum]
            omega
          | none =>
            rw [hld] at hlast
            simp only [Option.map_none'] at hlast
            refine ih _ stF h (by simp [idStep_rootList]; omega) k lk x t hk hhdr hpar ?_
            rw [hld]
            simp only
            by_cases hidx : declaredID line = some x
            · rw [if_pos hidx] at hlast
              simp only at hlast
              subst hlast
              rw [hdecl] at hidx
              rw [idStep_idLine_dget, if_pos hidx]
              simp
            · rw [if_neg hidx] at hlast
              rw [hdecl] at hidx
              rw [idStep_idLine_dget, if_neg hidx]
              exact hlast

/-- Claim C10: when several lines declare the same `ID` value, a later
`Parent` reference to that value inherits the root of the most recently
seen declaring line — `gff_id_line` is overwritten on each redeclaration
(source line 116), so the last declaration at position `j ≤ k` before the
referencing line `k` wins. -/
theorem C10_last_declaration_wins (lines : List String) (p1 : FindRootState)
    (x lk : String) (k j : Nat)
    (h : findRootLoop initFindRoot lines = .ok p1)
    (hk : (numberedLines lines).get? k = some lk)
    (hhdr : ¬ pyFirstChar lk = some '#')
    (hpar : attrOfLine lk "Parent" = some x)
    (hj : lastDeclarer (numberedLines lines) x k = some j) :
    p1.rootList.get? k = p1.rootList.get? j := by
  have hmain := findRootLoop_parent_inherits lines initFindRoot p1 h rfl k lk x j
    hk hhdr hpar ?_
  · simpa [initFindRoot] using hmain
  · rw [hj]
    simp [initFindRoot]

def c10file : List String :=
  ["chr1\t.\tgene\t10\t20\t.\t+\t.\tID=g1",
   "chr1\t.\tgene\t30\t40\t.\t+\t.\tID=g1",
   "chr1\t.\texon\t30\t35\t.\t+\t.\tID=e1;Parent=g1"]

def c10state : FindRootState :=
  ⟨[0, 1, 1], [(0, [0]), (1, [1, 2])], [("g1", 1), ("e1", 2)], 3⟩

/-- Claim C10 witness: two lines declare `ID=g1`; the child referencing
`Parent=g1` gets the root of the second declaration (line 1, its own root),
not of line 0. -/
theorem C10_last_declaration_wins_witness :
    c10state.rootList.get? 2 = c10state.rootList.get? 1 :=
  C10_last_declaration_wins c10file c10state "g1"
    "chr1\t.\texon\t30\t35\t.\t+\t.\tID=e1;Parent=g1" 2 1
    (by rfl) (by rfl) (by decide) (by rfl) (by rfl)

/-! ### Pass-1 structural facts feeding the pass-2 invariants -/

/-- A removed disposition. -/
def removedStatus (v : Status) : Prop :=
  v = .sequence_removed ∨ v = .position_removed

/-- What `_update_features` relies on about the pass-1 output, stated
against the numbered lines `N`: the root list covers every numbered line;
group members carry exactly their group's root; every line belongs to its
own root's group; a header roots at itself and a feature's root is a
feature line. -/
def RootFacts (N : List String) (p1 : FindRootState) : Prop :=
  p1.rootList.length = N.length ∧
  (∀ r i, i ∈ dgetList p1.rootLineDict r → p1.rootList.get? i = some r) ∧
  (∀ i, i < N.length → ∃ r, p1.rootList.get? i = some r ∧
    i ∈ dgetList p1.rootLineDict r) ∧
  (∀ i li, N.get? i = some li →
    (pyFirstChar li = some '#' → p1.rootList.get? i = some i) ∧
    (¬ pyFirstChar li = some '#' →
      ∃ r lr, p1.rootList.get? i = some r ∧ N.get? r = some lr ∧
        ¬ pyFirstChar lr = some '#'))

/-- Invariant of a partial `_find_root_features` run. -/
def RootInv (N : List String) (st : FindRootState) : Prop :=
  st.curNum = st.rootList.length ∧
  st.curNum ≤ N.length ∧
  (∀ r i, i ∈ dgetList st.rootLineDict r → st.rootList.get? i = some r) ∧
  (∀ i, i < st.curNum → ∃ r, st.rootList.get? i = some r ∧
    i ∈ dgetList st.rootLineDict r) ∧
  (∀ i li, i < st.curNum → N.get? i = some li →
    (pyFirstChar li = some '#' → st.rootList.get? i = some i) ∧
    (¬ pyFirstChar li = some '#' →
      ∃ r lr, st.rootList.get? i = some r ∧ N.get? r = some lr ∧
        ¬ pyFirstChar lr = some '#' ∧ r < st.curNum)) ∧
  (∀ x d, dget st.idLine x = some d → d < st.curNum ∧
    ∃ ld, N.get? d = some ld ∧ ¬ pyFirstChar ld = some '#')

theorem drop_cons_get? {α : Type} {N : List α} {c : Nat} {x : α} {xs : List α}
    (h : N.drop c = x :: xs) : N.get? c = some x := by
  have h0 : (N.drop c).get? 0 = some x := by rw [h]; rfl
  rwa [List.get?_drop, Nat.add_zero] at h0

theorem drop_cons_succ {α : Type} {N : List α} {c : Nat} {x : α} {xs : List α}
    (h : N.drop c = x :: xs) : N.drop (c + 1) = xs := by
  have h1 : (N.drop c).drop 1 = N.drop (c + 1) := by
    rw [List.drop_drop]
  rw [← h1, h]
  rfl

theorem drop_cons_lt {α : Type} {N : List α} {c : Nat} {x : α} {xs : List α}
    (h : N.drop c = x :: xs) : c < N.length := by
  by_contra hc
  rw [List.drop_eq_nil_of_le (by omega)] at h
  exact List.noConfusion h

/-- Appending a new line to the root structures preserves the membership
facts, whatever root value the new line gets. -/
theorem rootStruct_extend (rl : List Nat) (rd : List (Nat × List Nat)) (rv : Nat)
    (hP1 : ∀ r i, i ∈ dgetList rd r → rl.get? i = some r)
    (hP2 : ∀ i, i < rl.length → ∃ r, rl.get? i = some r ∧ i ∈ dgetList rd r) :
    (∀ r i, i ∈ dgetList (dappend rd rv rl.length) r →
      (rl ++ [rv]).get? i = some r) ∧
    (∀ i, i < rl.length + 1 → ∃ r, (rl ++ [rv]).get? i = some r ∧
      i ∈ dgetList (dappend rd rv rl.length) r) := by
  constructor
  · intro r i hmem
    rw [dgetList_dappend] at hmem
    by_cases hrv : rv = r
    · subst hrv
      rw [if_pos rfl] at hmem
      rcases List.mem_append.mp hmem with hold | hnew
      · have := hP1 rv i hold
        have hi : i < rl.length := (List.get?_eq_some.mp this).choose
        rw [List.get?_append hi]
        exact this
      · have hi : i = rl.length := by simpa using hnew
        subst hi
        rw [get?_concat_len]
    · rw [if_neg hrv] at hmem
      have := hP1 r i hmem
      have hi : i < rl.length := (List.get?_eq_some.mp this).choose
      rw [List.get?_append hi]
      exact this
  · intro i hi
    by_cases hilt : i < rl.length
    · obtain ⟨r, hget, hmem⟩ := hP2 i hilt
      refine ⟨r, ?_, ?_⟩
      · rw [List.get?_append hilt]; exact hget
      · rw [dgetList_dappend]
        by_cases hrv : rv = r
        · subst hrv
          rw [if_pos rfl]
          exact List.mem_append.mpr (Or.inl hmem)
        · rw [if_neg hrv]
          exact hmem
    · have hieq : i = rl.length := by omega
      subst hieq
      refine ⟨rv, get?_concat_len rl rv, ?_⟩
      rw [dgetList_dappend, if_pos rfl]
      exact List.mem_append.mpr (Or.inr (by simp))

/-- One numbered line extends the pass-1 state, rooting the new line at
`rv`: either at itself, or (for a `Parent` feature) at an earlier feature
line's root. -/
theorem RootInv_extend (N : List String) (st : FindRootState) (line : String)
    (idL : List (String × Nat)) (rv : Nat)
    (hInv : RootInv N st)
    (hline : N.get? st.curNum = some line)
    (hlt : st.curNum < N.length)
    (hrv : rv = st.curNum ∨
      (∃ lr, N.get? rv = some lr ∧ ¬ pyFirstChar lr = some '#' ∧ rv < st.curNum))
    (hrvhdr : pyFirstChar line = some '#' → rv = st.curNum)
    (hidL : ∀ x d, dget idL x = some d →
      (d = st.curNum ∧ ¬ pyFirstChar line = some '#') ∨ dget st.idLine x = some d) :
    RootInv N
      ⟨st.rootList ++ [rv], dappend st.rootLineDict rv st.curNum, idL,
        st.curNum + 1⟩ := by
  obtain ⟨hP0, hP5, hP1, hP2, hP3, hP4⟩ := hInv
  have hstruct := rootStruct_extend st.rootList st.rootLineDict rv hP1
    (fun i hi => hP2 i (by omega))
  rw [← hP0] at hstruct
  unfold RootInv
  dsimp only
  refine ⟨by simp; omega, by omega, hstruct.1, ?_, ?_, ?_⟩
  · intro i hi
    have := hstruct.2 i (by omega)
    simpa using this
  · intro i li hi hni
    by_cases hic : i < st.curNum
    · obtain ⟨hhd, hft⟩ := hP3 i li hic hni
      constructor
      · intro hh
        have := hhd hh
        have hilen : i < st.rootList.length := by omega
        rw [List.get?_append hilen]
        exact this
      · intro hh
        obtain ⟨r, lr, hget, hNr, hlr, hrlt⟩ := hft hh
        have hilen : i < st.rootList.length := by omega
        refine ⟨r, lr, ?_, hNr, hlr, by omega⟩
        rw [List.get?_append hilen]
        exact hget
    · have hieq : i = st.curNum := by omega
      subst hieq
      rw [hline] at hni
      injection hni with hni
      subst hni
      constructor
      · intro hh
        have hrveq := hrvhdr hh
        subst hrveq
        rw [hP0, get?_concat_len]
      · intro hh
        rcases hrv with hself | ⟨lr, hNr, hlr, hrlt⟩
        · subst hself
          refine ⟨st.curNum, line, ?_, hline, hh, by omega⟩
          rw [hP0, get?_concat_len]
        · refine ⟨rv, lr, ?_, hNr, hlr, by omega⟩
          rw [hP0, get?_concat_len]
  · intro x d hd
    rcases hidL x d hd with ⟨hde, hft⟩ | hold
    · subst hde
      exact ⟨by omega, line, hline, hft⟩
    · have := hP4 x d hold
      exact ⟨by omega, this.2⟩

theorem RootFacts_of_complete (N : List String) (st : FindRootState)
    (hInv : RootInv N st) (hc : st.curNum = N.length) : RootFacts N st := by
  obtain ⟨hP0, hP5, hP1, hP2, hP3, hP4⟩ := hInv
  refine ⟨by omega, hP1, ?_, ?_⟩
  · intro i hi
    exact hP2 i (by omega)
  · intro i li hni
    have hi : i < st.curNum := by
      have := (List.get?_eq_some.mp hni).choose
      omega
    obtain ⟨hhd, hft⟩ := hP3 i li hi hni
    refine ⟨hhd, fun hh => ?_⟩
    obtain ⟨r, lr, hget, hNr, hlr, -⟩ := hft hh
    exact ⟨r, lr, hget, hNr, hlr⟩

/-- The structural facts hold for any completed pass-1 run. -/
theorem findRootLoop_facts_aux :
    ∀ (lines : List String) (N : List String) (st stF : FindRootState),
      findRootLoop st lines = .ok stF →
      N.drop st.curNum = numberedLines lines →
      RootInv N st → RootFacts N stF := by
  intro lines
  induction lines with
  | nil =>
    intro N st stF h hdrop hInv
    unfold findRootLoop at h
    injection h with h
    subst h
    refine RootFacts_of_complete N st hInv ?_
    have h1 : N.length - st.curNum = 0 := by
      have := congrArg List.length hdrop
      simpa [numberedLines] using this
    have h2 := hInv.2.1
    omega
  | cons line rest ih =>
    intro N st stF h hdrop hInv
    unfold findRootLoop at h
    split at h
    case isTrue hblank =>
      rw [numberedLines_cons_blank rest hblank] at hdrop
      exact ih N st stF h hdrop hInv
    case isFalse hblank =>
    split at h
    case isTrue hhash =>
      split at h
      case isTrue hfasta =>
        rw [numberedLines_cons_fasta rest hblank hhash hfasta] at hdrop
        injection h with h
        subst h
        have hline := drop_cons_get? hdrop
        have hlt := drop_cons_lt hdrop
        have hNlen : N.length = st.curNum + 1 := by
          have hlen := congrArg List.length hdrop
          rw [List.length_drop] at hlen
          simp at hlen
          omega
        have hInv2 := RootInv_extend N st line st.idLine st.curNum hInv hline hlt
          (Or.inl rfl) (fun _ => rfl)
          (fun x d hd => Or.inr hd)
        have := RootFacts_of_complete N _ hInv2 (by simpa using hNlen.symm)
        -- RootFacts only constrains rootList and rootLineDict, which agree
        -- with the returned state
        exact this
      case isFalse hfasta =>
        rw [numberedLines_cons_header rest hblank hhash hfasta] at hdrop
        have hline := drop_cons_get? hdrop
        have hlt := drop_cons_lt hdrop
        have hInv2 := RootInv_extend N st line st.idLine st.curNum hInv hline hlt
          (Or.inl rfl) (fun _ => rfl)
          (fun x d hd => Or.inr hd)
        exact ih N _ stF h (drop_cons_succ hdrop) hInv2
    case isFalse hhash =>
      split at h
      · exact absurd h (by simp)
      next attrs hattrs =>
      rw [numberedLines_cons_feature rest hblank hhash] at hdrop
      have hline := drop_cons_get? hdrop
      have hlt := drop_cons_lt hdrop
      have hidL : ∀ x d, dget (idStep st attrs).idLine x = some d →
          (d = st.curNum ∧ ¬ pyFirstChar line = some '#') ∨
          dget st.idLine x = some d := by
        intro x d hd
        rw [idStep_idLine_dget] at hd
        by_cases hx : attrLookup attrs "ID" = some x
        · rw [if_pos hx] at hd
          injection hd with hd
          exact Or.inl ⟨hd.symm, hhash⟩
        · rw [if_neg hx] at hd
          exact Or.inr hd
      split at h
      next p hp =>
        split at h
        · exact absurd h (by simp)
        next pl hpl =>
        split at h
        · exact absurd h (by simp)
        next r hr =>
        have hplv : dget (idStep st attrs).idLine p = some pl := pyKeyE_ok_iff.mp hpl
        have hrv : st.rootList.get? pl = some r := by
          have := pyIndex_ok_iff.mp hr
          rwa [idStep_rootList] at this
        -- pl is an earlier feature line (pl = curNum is impossible: the
        -- root list has no entry there yet)
        have hplcase := hidL p pl hplv
        have hplfeat : pl < st.curNum ∧ ∃ lp, N.get? pl = some lp ∧
            ¬ pyFirstChar lp = some '#' := by
          rcases hplcase with ⟨hpeq, -⟩ | hold
          · exfalso
            subst hpeq
            rw [hInv.1, List.get?_eq_none.mpr (by omega)] at hrv
            exact Option.noConfusion hrv
          · exact hInv.2.2.2.2.2 p pl hold |>.imp id id
        obtain ⟨hpllt, lp, hNpl, hlpfeat⟩ := hplfeat
        have hroot : ∃ lr, N.get? r = some lr ∧ ¬ pyFirstChar lr = some '#' ∧
            r < st.curNum := by
          obtain ⟨-, hft⟩ := hInv.2.2.2.2.1 pl lp hpllt hNpl
          obtain ⟨r', lr, hget', hNr, hlr, hrlt⟩ := hft hlpfeat
          rw [hrv] at hget'
          injection hget' with hget'
          subst hget'
          exact ⟨lr, hNr, hlr, hrlt⟩
        have hInv2 := RootInv_extend N st line (idStep st attrs).idLine r hInv
          hline hlt (Or.inr hroot) (fun hh => absurd hh hhash) hidL
        refine ih N _ stF h (drop_cons_succ hdrop) ?_
        have hrl : (idStep st attrs).rootList = st.rootList := idStep_rootList st attrs
        have hrd : (idStep st attrs).rootLineDict = st.rootLineDict :=
          idStep_rootLineDict st attrs
        rw [hrl, hrd]
        exact hInv2
      next hp =>
        have hInv2 := RootInv_extend N st line (idStep st attrs).idLine st.curNum
          hInv hline hlt (Or.inl rfl) (fun _ => rfl) hidL
        refine ih N _ stF h (drop_cons_succ hdrop) ?_
        have hrl : (idStep st attrs).rootList = st.rootList := idStep_rootList st attrs
        have hrd : (idStep st attrs).rootLineDict = st.rootLineDict :=
          idStep_rootLineDict st attrs
        rw [hrl, hrd]
        exact hInv2

theorem findRootLoop_facts (lines : List String) (p1 : FindRootState)
    (h : findRootLoop initFindRoot lines = .ok p1) :
    RootFacts (numberedLines lines) p1 := by
  refine findRootLoop_facts_aux lines (numberedLines lines) initFindRoot p1 h rfl ?_
  refine ⟨rfl, by simp [initFindRoot], ?_, ?_, ?_, ?_⟩
  · intro r i hmem
    simp [initFindRoot, dgetList, dget] at hmem
  · intro i hi
    simp [initFindRoot] at hi
  · intro i li hi
    simp [initFindRoot] at hi
  · intro x d hd
    simp [initFindRoot, dget] at hd

/-! ### Pass-2 invariants -/

theorem dget_setAllStatus (g : List Nat) (d : List (Nat × Status)) (v : Status)
    (k : Nat) :
    dget (setAllStatus d g v) k = if k ∈ g then some v else dget d k := by
  induction g generalizing d with
  | nil => simp [setAllStatus]
  | cons a g ih =>
    have hfold : setAllStatus d (a :: g) v = setAllStatus (dset d a v) g v := rfl
    rw [hfold, ih]
    by_cases hg : k ∈ g
    · simp [hg]
    · rw [if_neg hg, dget_dset]
      by_cases hak : a = k
      · subst hak
        simp
      · have : ¬ k ∈ a :: g := by
          intro hmem
          rcases List.mem_cons.mp hmem with hx | hx
          · exact hak hx.symm
          · exact hg hx
        rw [if_neg hak, if_neg this]

/-- Invariant of a partial `_update_features` run, relative to the numbered
lines `N` and the pass-1 group structure `rd`. -/
def UpdInv (al : List AlignRec) (N : List String) (rd : List (Nat × List Nat))
    (st : UpdateState) : Prop :=
  st.curNum ≤ N.length ∧
  st.lineList = N.take st.curNum ∧
  (∀ i, dget st.statusMap i ≠ none → i < N.length) ∧
  (∀ i li, i < st.curNum → N.get? i = some li →
    (pyFirstChar li = some '#' →
      dget st.statusMap i = some .header ∨
      dget st.statusMap i = some .sequence_region) ∧
    (¬ pyFirstChar li = some '#' →
      dget st.statusMap i = some .keep ∨
      dget st.statusMap i = some .sequence_removed ∨
      dget st.statusMap i = some .position_removed)) ∧
  (∀ i, st.curNum ≤ i → dget st.statusMap i = none ∨
    (∃ li, N.get? i = some li ∧ ¬ pyFirstChar li = some '#' ∧
      (dget st.statusMap i = some .sequence_removed ∨
       dget st.statusMap i = some .position_removed))) ∧
  (∀ r v, removedStatus v →
    (∃ i, i ∈ dgetList rd r ∧ dget st.statusMap i = some v) →
    ∀ j, j ∈ dgetList rd r → dget st.statusMap j = some v) ∧
  (∀ i li c, N.get? i = some li → dget st.convMap i = some c →
    (pyFirstChar li = some '#' ∧ c = li) ∨
    (¬ pyFirstChar li = some '#' ∧
      ∃ nt, classifyFeature al (splitTab li) = .ok (.mapped nt) ∧ c = joinTab nt)) ∧
  (∀ i li, N.get? i = some li → dget st.statusMap i = some .keep →
    ¬ pyFirstChar li = some '#' ∧
    ∃ nt, classifyFeature al (splitTab li) = .ok (.mapped nt))

/-- After the pass, at most a `##FASTA` marker of the numbered lines is
left unprocessed. -/
def PostUpd (N : List String) (st : UpdateState) : Prop :=
  N.drop st.curNum = [] ∨
  ∃ l, N.drop st.curNum = [l] ∧ pyFirstChar l = some '#'

/-- Overwriting an unclassified-or-`KEEP` line with a non-removed tag keeps
group-removal uniformity. -/
theorem U4_pres_set (rd : List (Nat × List Nat)) (d : List (Nat × Status))
    (c : Nat) (w : Status)
    (hw : ¬ removedStatus w)
    (hc : dget d c = none ∨ dget d c = some .keep)
    (hU4 : ∀ r v, removedStatus v →
      (∃ i, i ∈ dgetList rd r ∧ dget d i = some v) →
      ∀ j, j ∈ dgetList rd r → dget d j = some v) :
    ∀ r v, removedStatus v →
      (∃ i, i ∈ dgetList rd r ∧ dget (dset d c w) i = some v) →
      ∀ j, j ∈ dgetList rd r → dget (dset d c w) j = some v := by
  intro r v hv ⟨i, hig, hival⟩ j hjg
  rw [dget_dset] at hival
  by_cases hci : c = i
  · rw [if_pos hci] at hival
    injection hival with hival
    exact absurd (hival ▸ hv) hw
  · rw [if_neg hci] at hival
    have hall := hU4 r v hv ⟨i, hig, hival⟩
    have hcg : ¬ c ∈ dgetList rd r := by
      intro hcg
      have := hall c hcg
      rcases hc with hc | hc <;> rw [hc] at this
      · exact Option.noConfusion this
      · injection this with this
        rcases hv with hv | hv <;> rw [← this] at hv <;> exact Status.noConfusion hv
    have hne : ¬ c = j := by
      intro hcj
      rw [hcj] at hcg
      exact hcg hjg
    rw [dget_dset, if_neg hne]
    exact hall j hjg

/-- Marking a whole group removed keeps group-removal uniformity, for every
group. -/
theorem U4_pres_setAll (rl : List Nat) (rd : List (Nat × List Nat))
    (d : List (Nat × Status)) (r0 : Nat) (v0 : Status)
    (hv0 : removedStatus v0)
    (hF1 : ∀ r i, i ∈ dgetList rd r → rl.get? i = some r)
    (hU4 : ∀ r v, removedStatus v →
      (∃ i, i ∈ dgetList rd r ∧ dget d i = some v) →
      ∀ j, j ∈ dgetList rd r → dget d j = some v) :
    ∀ r v, removedStatus v →
      (∃ i, i ∈ dgetList rd r ∧
        dget (setAllStatus d (dgetList rd r0) v0) i = some v) →
      ∀ j, j ∈ dgetList rd r →
        dget (setAllStatus d (dgetList rd r0) v0) j = some v := by
  intro r v hv hex j hjg
  obtain ⟨i, hig, hival⟩ := hex
  rw [dget_setAllStatus] at hival
  by_cases hin : i ∈ dgetList rd r0
  · rw [if_pos hin] at hival
    have hival2 := Option.some.inj hival
    subst hival2
    have hrr : r = r0 := by
      have h1 := hF1 r i hig
      have h2 := hF1 r0 i hin
      rw [h1] at h2
      exact Option.some.inj h2
    subst hrr
    rw [dget_setAllStatus, if_pos hjg]
  · rw [if_neg hin] at hival
    have hall := hU4 r v hv ⟨i, hig, hival⟩
    rw [dget_setAllStatus]
    by_cases hjn : j ∈ dgetList rd r0
    · have hrr : r = r0 := by
        have h1 := hF1 r j hjg
        have h2 := hF1 r0 j hjn
        rw [h1] at h2
        exact Option.some.inj h2
      subst hrr
      exact absurd hig hin
    · rw [if_neg hjn]
      exact hall j hjg

theorem take_succ_of_get? {α : Type} {N : List α} {c : Nat} {x : α}
    (h : N.get? c = some x) : N.take (c + 1) = N.take c ++ [x] := by
  rw [List.take_succ]
  rw [show N[c]? = some x from by rw [← List.get?_eq_getElem?]; exact h]
  rfl

/-- A comment line is tagged `HEADER` or `SEQUENCE_REGION` and stored
verbatim in the converted map; this preserves the pass-2 invariant. -/
theorem UpdInv_step_header (al : List AlignRec) (N : List String)
    (rd : List (Nat × List Nat)) (st : UpdateState) (line : String) (w : Status)
    (hw : w = .header ∨ w = .sequence_region)
    (hInv : UpdInv al N rd st)
    (hline : N.get? st.curNum = some line)
    (hlt : st.curNum < N.length)
    (hhash : pyFirstChar line = some '#') :
    UpdInv al N rd
      ⟨dset st.statusMap st.curNum w, st.lineList ++ [line],
        dset st.convMap st.curNum line, st.curNum + 1⟩ := by
  obtain ⟨hU7, hU0, hU1, hU2, hU3, hU4, hU5, hU6⟩ := hInv
  have hstat_c : dget st.statusMap st.curNum = none := by
    rcases hU3 st.curNum (le_refl _) with hn | ⟨li, hli, hft, -⟩
    · exact hn
    · rw [hline] at hli
      injection hli with hli
      subst hli
      exact absurd hhash hft
  unfold UpdInv
  dsimp only
  refine ⟨by omega, ?_, ?_, ?_, ?_, ?_, ?_, ?_⟩
  · rw [hU0, take_succ_of_get? hline]
  · intro i hi
    rw [dget_dset] at hi
    by_cases hci : st.curNum = i
    · omega
    · rw [if_neg hci] at hi
      exact hU1 i hi
  · intro i li hi hN
    by_cases hci : st.curNum = i
    · subst hci
      rw [hline] at hN
      injection hN with hN
      subst hN
      rw [dget_dset, if_pos rfl]
      refine ⟨fun _ => ?_, fun hf => absurd hhash hf⟩
      rcases hw with hw | hw <;> rw [hw] <;> simp
    · rw [dget_dset, if_neg hci]
      exact hU2 i li (by omega) hN
  · intro i hi
    rw [dget_dset, if_neg (by omega : ¬ st.curNum = i)]
    exact hU3 i (by omega)
  · exact U4_pres_set rd st.statusMap st.curNum w
      (by rcases hw with hw | hw <;> subst hw <;>
        rintro (hx | hx) <;> exact Status.noConfusion hx)
      (Or.inl hstat_c) hU4
  · intro i li c hN hconv
    rw [dget_dset] at hconv
    by_cases hci : st.curNum = i
    · subst hci
      rw [if_pos rfl] at hconv
      injection hconv with hconv
      rw [hline] at hN
      injection hN with hN
      subst hN
      exact Or.inl ⟨hhash, hconv.symm⟩
    · rw [if_neg hci] at hconv
      exact hU5 i li c hN hconv
  · intro i li hN hkeep
    rw [dget_dset] at hkeep
    by_cases hci : st.curNum = i
    · rw [if_pos hci] at hkeep
      injection hkeep with hkeep
      rcases hw with hw | hw <;> rw [hw] at hkeep <;> exact Status.noConfusion hkeep
    · rw [if_neg hci] at hkeep
      exact hU6 i li hN hkeep

/-- A successfully rewritten feature line is tagged `KEEP` and its joined
tokens stored; this preserves the pass-2 invariant. -/
theorem UpdInv_step_keep (al : List AlignRec) (N : List String)
    (rd : List (Nat × List Nat)) (st : UpdateState) (line : String)
    (nt : List String)
    (hInv : UpdInv al N rd st)
    (hline : N.get? st.curNum = some line)
    (hlt : st.curNum < N.length)
    (hfeat : ¬ pyFirstChar line = some '#')
    (hguard : dget st.statusMap st.curNum = none ∨
      dget st.statusMap st.curNum = some .keep)
    (hcf : classifyFeature al (splitTab line) = .ok (.mapped nt)) :
    UpdInv al N rd
      ⟨dset st.statusMap st.curNum .keep, st.lineList ++ [line],
        dset st.convMap st.curNum (joinTab nt), st.curNum + 1⟩ := by
  obtain ⟨hU7, hU0, hU1, hU2, hU3, hU4, hU5, hU6⟩ := hInv
  unfold UpdInv
  dsimp only
  refine ⟨by omega, ?_, ?_, ?_, ?_, ?_, ?_, ?_⟩
  · rw [hU0, take_succ_of_get? hline]
  · intro i hi
    rw [dget_dset] at hi
    by_cases hci : st.curNum = i
    · omega
    · rw [if_neg hci] at hi
      exact hU1 i hi
  · intro i li hi hN
    by_cases hci : st.curNum = i
    · subst hci
      rw [hline] at hN
      injection hN with hN
      subst hN
      rw [dget_dset, if_pos rfl]
      exact ⟨fun hh => absurd hh hfeat, fun _ => Or.inl rfl⟩
    · rw [dget_dset, if_neg hci]
      exact hU2 i li (by omega) hN
  · intro i hi
    rw [dget_dset, if_neg (by omega : ¬ st.curNum = i)]
    exact hU3 i (by omega)
  · exact U4_pres_set rd st.statusMap st.curNum .keep
      (by rintro (hx | hx) <;> exact Status.noConfusion hx)
      hguard hU4
  · intro i li c hN hconv
    rw [dget_dset] at hconv
    by_cases hci : st.curNum = i
    · subst hci
      rw [if_pos rfl] at hconv
      injection hconv with hconv
      rw [hline] at hN
      injection hN with hN
      subst hN
      exact Or.inr ⟨hfeat, nt, hcf, hconv.symm⟩
    · rw [if_neg hci] at hconv
      exact hU5 i li c hN hconv
  · intro i li hN hkeep
    rw [dget_dset] at hkeep
    by_cases hci : st.curNum = i
    · subst hci
      rw [hline] at hN
      injection hN with hN
      subst hN
      exact ⟨hfeat, nt, hcf⟩
    · rw [if_neg hci] at hkeep
      exact hU6 i li hN hkeep

/-- A failed feature line marks its whole root-group removed; this
preserves the pass-2 invariant. -/
theorem UpdInv_step_removal (al : List AlignRec) (N : List String)
    (rl : List Nat) (rd : List (Nat × List Nat))
    (hF0 : rl.length = N.length)
    (hF1 : ∀ r i, i ∈ dgetList rd r → rl.get? i = some r)
    (hF2 : ∀ i, i < N.length → ∃ r, rl.get? i = some r ∧ i ∈ dgetList rd r)
    (hF3 : ∀ i li, N.get? i = some li →
      (pyFirstChar li = some '#' → rl.get? i = some i) ∧
      (¬ pyFirstChar li = some '#' →
        ∃ r lr, rl.get? i = some r ∧ N.get? r = some lr ∧
          ¬ pyFirstChar lr = some '#'))
    (st : UpdateState) (line : String) (r0 : Nat) (v0 : Status)
    (hv0 : removedStatus v0)
    (hInv : UpdInv al N rd st)
    (hline : N.get? st.curNum = some line)
    (hlt : st.curNum < N.length)
    (hfeat : ¬ pyFirstChar line = some '#')
    (hr0 : rl.get? st.curNum = some r0) :
    UpdInv al N rd
      ⟨setAllStatus st.statusMap (dgetList rd r0) v0, st.lineList ++ [line],
        st.convMap, st.curNum + 1⟩ := by
  obtain ⟨hU7, hU0, hU1, hU2, hU3, hU4, hU5, hU6⟩ := hInv
  -- the root `r0` is a feature line
  have hroot_feat : ∃ lr, N.get? r0 = some lr ∧ ¬ pyFirstChar lr = some '#' := by
    obtain ⟨-, hft⟩ := hF3 st.curNum line hline
    obtain ⟨r', lr, hget', hNr, hlr⟩ := hft hfeat
    rw [hr0] at hget'
    have := Option.some.inj hget'
    subst this
    exact ⟨lr, hNr, hlr⟩
  -- every member of the group is a feature line
  have hmem_feat : ∀ i, i ∈ dgetList rd r0 →
      i < N.length ∧ ∃ li, N.get? i = some li ∧ ¬ pyFirstChar li = some '#' := by
    intro i hig
    have hgi := hF1 r0 i hig
    have hilen : i < rl.length := (List.get?_eq_some.mp hgi).choose
    have hNi : ∃ li, N.get? i = some li := by
      have hlt2 : i < N.length := by omega
      cases hx : N.get? i with
      | none =>
        rw [List.get?_eq_none] at hx
        omega
      | some li => exact ⟨li, rfl⟩
    obtain ⟨li, hNi⟩ := hNi
    refine ⟨by omega, li, hNi, ?_⟩
    intro hh
    obtain ⟨hhd, -⟩ := hF3 i li hNi
    have hii := hhd hh
    rw [hgi] at hii
    have := Option.some.inj hii
    subst this
    obtain ⟨lr, hNr, hlr⟩ := hroot_feat
    rw [hNi] at hNr
    have := Option.some.inj hNr
    subst this
    exact hlr hh
  have hcur_mem : st.curNum ∈ dgetList rd r0 := by
    obtain ⟨r', hget', hmem'⟩ := hF2 st.curNum (by omega)
    rw [hr0] at hget'
    have := Option.some.inj hget'
    subst this
    exact hmem'
  unfold UpdInv
  dsimp only
  refine ⟨by omega, ?_, ?_, ?_, ?_, ?_, ?_, ?_⟩
  · rw [hU0, take_succ_of_get? hline]
  · intro i hi
    rw [dget_setAllStatus] at hi
    by_cases hig : i ∈ dgetList rd r0
    · exact (hmem_feat i hig).1
    · rw [if_neg hig] at hi
      exact hU1 i hi
  · intro i li hi hN
    rw [dget_setAllStatus]
    by_cases hig : i ∈ dgetList rd r0
    · rw [if_pos hig]
      obtain ⟨-, li', hNi, hli'⟩ := hmem_feat i hig
      rw [hN] at hNi
      have := Option.some.inj hNi
      subst this
      refine ⟨fun hh => absurd hh hli', fun _ => ?_⟩
      rcases hv0 with hv | hv <;> rw [hv] <;> simp
    · rw [if_neg hig]
      by_cases hci : i < st.curNum
      · exact hU2 i li hci hN
      · exfalso
        have hieq : i = st.curNum := by omega
        subst hieq
        exact hig hcur_mem
  · intro i hi
    rw [dget_setAllStatus]
    by_cases hig : i ∈ dgetList rd r0
    · rw [if_pos hig]
      obtain ⟨-, li, hNi, hli⟩ := hmem_feat i hig
      refine Or.inr ⟨li, hNi, hli, ?_⟩
      rcases hv0 with hv | hv <;> rw [hv] <;> simp
    · rw [if_neg hig]
      exact hU3 i (by omega)
  · exact U4_pres_setAll rl rd st.statusMap r0 v0 hv0 hF1 hU4
  · exact hU5
  · intro i li hN hkeep
    rw [dget_setAllStatus] at hkeep
    by_cases hig : i ∈ dgetList rd r0
    · rw [if_pos hig] at hkeep
      have := Option.some.inj hkeep
      rcases hv0 with hv | hv <;> rw [hv] at this <;> exact Status.noConfusion this
    · rw [if_neg hig] at hkeep
      exact hU6 i li hN hkeep

/-- A feature line whose status is already a removed one is skipped; this
preserves the pass-2 invariant. -/
theorem UpdInv_step_skip (al : List AlignRec) (N : List String)
    (rd : List (Nat × List Nat)) (st : UpdateState) (line : String)
    (hInv : UpdInv al N rd st)
    (hline : N.get? st.curNum = some line)
    (hlt : st.curNum < N.length)
    (hfeat : ¬ pyFirstChar line = some '#')
    (hguard : ¬ (dget st.statusMap st.curNum = none ∨
      dget st.statusMap st.curNum = some .keep)) :
    UpdInv al N rd
      ⟨st.statusMap, st.lineList ++ [line], st.convMap, st.curNum + 1⟩ := by
  obtain ⟨hU7, hU0, hU1, hU2, hU3, hU4, hU5, hU6⟩ := hInv
  push_neg at hguard
  unfold UpdInv
  dsimp only
  refine ⟨by omega, ?_, hU1, ?_, ?_, hU4, hU5, hU6⟩
  · rw [hU0, take_succ_of_get? hline]
  · intro i li hi hN
    by_cases hci : i = st.curNum
    · subst hci
      rw [hline] at hN
      injection hN with hN
      subst hN
      refine ⟨fun hh => absurd hh hfeat, fun _ => ?_⟩
      rcases hU3 st.curNum (le_refl _) with hn | ⟨li', hNi', hfeat', hrem⟩
      · exact absurd hn hguard.1
      · exact Or.inr hrem
    · exact hU2 i li (by omega) hN
  · intro i hi
    exact hU3 i (by omega)

/-- Stopping at `##FASTA` stores its text in the converted map and ends the
pass; the invariant still holds for the returned state. -/
theorem UpdInv_step_fasta (al : List AlignRec) (N : List String)
    (rd : List (Nat × List Nat)) (st : UpdateState) (line : String)
    (hInv : UpdInv al N rd st)
    (hline : N.get? st.curNum = some line)
    (hhash : pyFirstChar line = some '#') :
    UpdInv al N rd
      ⟨st.statusMap, st.lineList, dset st.convMap st.curNum line, st.curNum⟩ := by
  obtain ⟨hU7, hU0, hU1, hU2, hU3, hU4, hU5, hU6⟩ := hInv
  unfold UpdInv
  dsimp only
  refine ⟨hU7, hU0, hU1, hU2, hU3, hU4, ?_, hU6⟩
  intro i li c hN hconv
  rw [dget_dset] at hconv
  by_cases hci : st.curNum = i
  · subst hci
    rw [if_pos rfl] at hconv
    injection hconv with hconv
    rw [hline] at hN
    injection hN with hN
    subst hN
    exact Or.inl ⟨hhash, hconv.symm⟩
  · rw [if_neg hci] at hconv
    exact hU5 i li c hN hconv

/-- The pass-2 invariant holds after any completed `_update_features` run,
and at most a trailing `##FASTA` header stays unprocessed. -/
theorem updateLoop_inv_aux (al : List AlignRec) (N : List String)
    (rl : List Nat) (rd : List (Nat × List Nat))
    (hF0 : rl.length = N.length)
    (hF1 : ∀ r i, i ∈ dgetList rd r → rl.get? i = some r)
    (hF2 : ∀ i, i < N.length → ∃ r, rl.get? i = some r ∧ i ∈ dgetList rd r)
    (hF3 : ∀ i li, N.get? i = some li →
      (pyFirstChar li = some '#' → rl.get? i = some i) ∧
      (¬ pyFirstChar li = some '#' →
        ∃ r lr, rl.get? i = some r ∧ N.get? r = some lr ∧
          ¬ pyFirstChar lr = some '#')) :
    ∀ (lines : List String) (st stF : UpdateState),
      updateLoop al rl rd st lines = .ok stF →
      N.drop st.curNum = numberedLines lines →
      UpdInv al N rd st →
      UpdInv al N rd stF ∧ PostUpd N stF := by
  intro lines
  induction lines with
  | nil =>
    intro st stF h hdrop hInv
    unfold updateLoop at h
    injection h with h
    subst h
    refine ⟨hInv, Or.inl ?_⟩
    simpa [numberedLines] using hdrop
  | cons line rest ih =>
    intro st stF h hdrop hInv
    unfold updateLoop at h
    split at h
    case isTrue hblank =>
      rw [numberedLines_cons_blank rest hblank] at hdrop
      exact ih st stF h hdrop hInv
    case isFalse hblank =>
    split at h
    case isTrue hhash =>
      split at h
      case isTrue hreg =>
        rw [numberedLines_cons_header rest hblank hhash
          (fun hf => by rw [hf] at hreg; exact absurd hreg (by decide))] at hdrop
        have hline := drop_cons_get? hdrop
        have hlt := drop_cons_lt hdrop
        exact ih _ stF h (drop_cons_succ hdrop)
          (UpdInv_step_header al N rd st line .sequence_region (Or.inr rfl)
            hInv hline hlt hhash)
      case isFalse hreg =>
      split at h
      case isTrue hfasta =>
        rw [numberedLines_cons_fasta rest hblank hhash hfasta] at hdrop
        have hline := drop_cons_get? hdrop
        injection h with h
        subst h
        refine ⟨UpdInv_step_fasta al N rd st line hInv hline hhash, Or.inr ?_⟩
        exact ⟨line, hdrop, hhash⟩
      case isFalse hfasta =>
        rw [numberedLines_cons_header rest hblank hhash hfasta] at hdrop
        have hline := drop_cons_get? hdrop
        have hlt := drop_cons_lt hdrop
        exact ih _ stF h (drop_cons_succ hdrop)
          (UpdInv_step_header al N rd st line .header (Or.inl rfl)
            hInv hline hlt hhash)
    case isFalse hhash =>
      rw [numberedLines_cons_feature rest hblank hhash] at hdrop
      have hline := drop_cons_get? hdrop
      have hlt := drop_cons_lt hdrop
      split at h
      case isTrue hguard =>
        split at h
        · exact absurd h (by simp)
        case _ nt hcf =>
          exact ih _ stF h (drop_cons_succ hdrop)
            (UpdInv_step_keep al N rd st line nt hInv hline hlt hhash hguard hcf)
        case _ hcf =>
          split at h
          · exact absurd h (by simp)
          next r0 hr0 =>
            have hr0v : rl.get? st.curNum = some r0 := pyIndex_ok_iff.mp hr0
            exact ih _ stF h (drop_cons_succ hdrop)
              (UpdInv_step_removal al N rl rd hF0 hF1 hF2 hF3 st line r0
                .position_removed (Or.inr rfl) hInv hline hlt hhash hr0v)
        case _ hcf =>
          split at h
          · exact absurd h (by simp)
          next r0 hr0 =>
            have hr0v : rl.get? st.curNum = some r0 := pyIndex_ok_iff.mp hr0
            exact ih _ stF h (drop_cons_succ hdrop)
              (UpdInv_step_removal al N rl rd hF0 hF1 hF2 hF3 st line r0
                .sequence_removed (Or.inl rfl) hInv hline hlt hhash hr0v)
      case isFalse hguard =>
        exact ih _ stF h (drop_cons_succ hdrop)
          (UpdInv_step_skip al N rd st line hInv hline hlt hhash hguard)

theorem updateGff_ok_split (al : List AlignRec) (lines : List String)
    (p1 : FindRootState) (p2 : UpdateState) (p3 : OutputState)
    (h : updateGff al lines = .ok (p1, p2, p3)) :
    findRootLoop initFindRoot lines = .ok p1 ∧
    updateLoop al p1.rootList p1.rootLineDict initUpdate lines = .ok p2 ∧
    outputLoop al p2.statusMap p2.convMap initOutput 0 p2.lineList = .ok p3 := by
  unfold updateGff at h
  split at h
  · exact absurd h (by simp)
  next q1 h1 =>
  split at h
  · exact absurd h (by simp)
  next q2 h2 =>
  split at h
  · exact absurd h (by simp)
  next q3 h3 =>
  injection h with h
  injection h with ha hb
  injection hb with hb hc
  subst ha; subst hb; subst hc
  exact ⟨h1, h2, h3⟩

theorem initUpdate_inv (al : List AlignRec) (N : List String)
    (rd : List (Nat × List Nat)) : UpdInv al N rd initUpdate := by
  refine ⟨by simp [initUpdate], by simp [initUpdate], ?_, ?_, ?_, ?_, ?_, ?_⟩
  · intro i hi
    simp [initUpdate, dget] at hi
  · intro i li hi
    simp [initUpdate] at hi
  · intro i hi
    left
    simp [initUpdate, dget]
  · intro r v hv hex
    obtain ⟨i, -, hival⟩ := hex
    simp [initUpdate, dget] at hival
  · intro i li c hN hconv
    simp [initUpdate, dget] at hconv
  · intro i li hN hkeep
    simp [initUpdate, dget] at hkeep

/-- The combined pipeline facts for any successful `update` run. -/
theorem updateGff_invariants (al : List AlignRec) (lines : List String)
    (p1 : FindRootState) (p2 : UpdateState) (p3 : OutputState)
    (h : updateGff al lines = .ok (p1, p2, p3)) :
    RootFacts (numberedLines lines) p1 ∧
    UpdInv al (numberedLines lines) p1.rootLineDict p2 ∧
    PostUpd (numberedLines lines) p2 := by
  obtain ⟨h1, h2, h3⟩ := updateGff_ok_split al lines p1 p2 p3 h
  have hfacts := findRootLoop_facts lines p1 h1
  obtain ⟨hF0, hF1, hF2, hF3⟩ := hfacts
  have := updateLoop_inv_aux al (numberedLines lines) p1.rootList p1.rootLineDict
    hF0 hF1 hF2 hF3 lines initUpdate p2 h2 rfl
    (initUpdate_inv al (numberedLines lines) p1.rootLineDict)
  exact ⟨⟨hF0, hF1, hF2, hF3⟩, this.1, this.2⟩

/-- During the pass, a line whose status is neither absent nor `KEEP` never
returns to an absent or `KEEP` status. -/
theorem updateLoop_no_revert (al : List AlignRec) (rl : List Nat)
    (rd : List (Nat × List Nat)) :
    ∀ (lines : List String) (st stF : UpdateState) (i : Nat),
      updateLoop al rl rd st lines = .ok stF →
      dget st.statusMap i ≠ none → dget st.statusMap i ≠ some .keep →
      dget stF.statusMap i ≠ none ∧ dget stF.statusMap i ≠ some .keep := by
  intro lines
  induction lines with
  | nil =>
    intro st stF i h hn hk
    unfold updateLoop at h
    injection h with h
    subst h
    exact ⟨hn, hk⟩
  | cons line rest ih =>
    intro st stF i h hn hk
    unfold updateLoop at h
    split at h
    · exact ih st stF i h hn hk
    · split at h
      · split at h
        · -- sequence-region header
          refine ih _ stF i h ?_ ?_ <;>
            · dsimp only
              rw [dget_dset]
              by_cases hci : st.curNum = i
              · rw [if_pos hci]; simp
              · rw [if_neg hci]; first | exact hn | exact hk
        · split at h
          · -- FASTA stop
            injection h with h
            subst h
            exact ⟨hn, hk⟩
          · -- plain header
            refine ih _ stF i h ?_ ?_ <;>
              · dsimp only
                rw [dget_dset]
                by_cases hci : st.curNum = i
                · rw [if_pos hci]; simp
                · rw [if_neg hci]; first | exact hn | exact hk
      · split at h
        case isTrue hguard =>
          split at h
          · exact absurd h (by simp)
          case _ nt hcf =>
            have hci : ¬ st.curNum = i := by
              intro hci
              rw [hci] at hguard
              rcases hguard with hg | hg
              · exact hn hg
              · exact hk hg
            refine ih _ stF i h ?_ ?_ <;>
              · dsimp only
                rw [dget_dset, if_neg hci]
                first | exact hn | exact hk
          case _ hcf =>
            split at h
            · exact absurd h (by simp)
            next r0 hr0 =>
              refine ih _ stF i h ?_ ?_ <;>
                · dsimp only
                  rw [dget_setAllStatus]
                  by_cases hig : i ∈ dgetList rd r0
                  · rw [if_pos hig]; simp
                  · rw [if_neg hig]; first | exact hn | exact hk
          case _ hcf =>
            split at h
            · exact absurd h (by simp)
            next r0 hr0 =>
              refine ih _ stF i h ?_ ?_ <;>
                · dsimp only
                  rw [dget_setAllStatus]
                  by_cases hig : i ∈ dgetList rd r0
                  · rw [if_pos hig]; simp
                  · rw [if_neg hig]; first | exact hn | exact hk
        case isFalse hguard =>
          exact ih _ stF i h hn hk

/-- Claim C5: (a) after the classification pass, if a line ended with a
removed disposition, every line of its root-group carries that same removed
disposition, for every input file and processing order; (b) a line whose
status is a removed one when any remaining part of the pass starts is never
reverted to `KEEP` by that remainder. -/
theorem C5_subtree_removal_atomic (al : List AlignRec) (lines : List String)
    (p1 : FindRootState) (p2 : UpdateState) (p3 : OutputState)
    (h : updateGff al lines = .ok (p1, p2, p3)) :
    (∀ i v r, removedStatus v → dget p2.statusMap i = some v →
      p1.rootList.get? i = some r →
      ∀ j, j ∈ dgetList p1.rootLineDict r → dget p2.statusMap j = some v) ∧
    (∀ (st stF : UpdateState) (more : List String) (i : Nat) (v : Status),
      removedStatus v → dget st.statusMap i = some v →
      updateLoop al p1.rootList p1.rootLineDict st more = .ok stF →
      dget stF.statusMap i ≠ some .keep) := by
  obtain ⟨⟨hF0, hF1, hF2, hF3⟩, hInv, hPost⟩ :=
    updateGff_invariants al lines p1 p2 p3 h
  obtain ⟨hU7, hU0, hU1, hU2, hU3, hU4, hU5, hU6⟩ := hInv
  constructor
  · intro i v r hv hstat hroot j hj
    have hilen : i < (numberedLines lines).length := hU1 i (by rw [hstat]; simp)
    obtain ⟨r', hget', hmem'⟩ := hF2 i hilen
    rw [hroot] at hget'
    have := Option.some.inj hget'
    subst this
    exact hU4 r v hv ⟨i, hmem', hstat⟩ j hj
  · intro st stF more i v hv hstat hrun
    exact (updateLoop_no_revert al p1.rootList p1.rootLineDict more st stF i hrun
      (by rw [hstat]; simp)
      (by rw [hstat]; intro hx; have := Option.some.inj hx; subst this
          rcases hv with hv | hv <;> exact Status.noConfusion hv)).2

def c5align : List AlignRec := [⟨"chr1", 100, 200, "chr1_new", 1000, 1100⟩]

def c5file : List String :=
  ["##gff-version 3",
   "chr1\t.\tgene\t150\t180\t.\t+\t.\tID=g1",
   "chr1\t.\texon\t150\t250\t.\t+\t.\tID=e1;Parent=g1",
   "##FASTA",
   "chr1\t.\tgene\t150\t180\t.\t+\t.\tID=zz"]

def c5p1 : FindRootState :=
  ⟨[0, 1, 1, 3], [(0, [0]), (1, [1, 2]), (3, [3])], [("g1", 1), ("e1", 2)], 3⟩

def c5p2 : UpdateState :=
  ⟨[(0, .header), (1, .position_removed), (2, .position_removed)],
   ["##gff-version 3",
    "chr1\t.\tgene\t150\t180\t.\t+\t.\tID=g1",
    "chr1\t.\texon\t150\t250\t.\t+\t.\tID=e1;Parent=g1"],
   [(0, "##gff-version 3"),
    (1, "chr1_new\t.\tgene\t1050\t1080\t.\t+\t.\tID=g1"),
    (3, "##FASTA")],
   3⟩

def c5p3 : OutputState :=
  ⟨[.header 0 "##gff-version 3"],
   ["chr1\t.\tgene\t150\t180\t.\t+\t.\tID=g1",
    "chr1\t.\texon\t150\t250\t.\t+\t.\tID=e1;Parent=g1"],
   [], 0, 2⟩

/-- Claim C5 witness: the gene line was first tagged `KEEP`, then its child
exon failed the coordinate check (250 is beyond every block), and the whole
root-group — including the already-kept parent — ends `POSITION_REMOVED`. -/
theorem C5_subtree_removal_atomic_witness :
    dget c5p2.statusMap 1 = some .position_removed :=
  (C5_subtree_removal_atomic c5align c5file c5p1 c5p2 c5p3 (by rfl)).1
    2 .position_removed 1 (Or.inr rfl) (by rfl) (by rfl) 1 (by decide)

def c3align : List AlignRec :=
  [⟨"chr1", 100, 200, "N1", 1000, 1100⟩, ⟨"chr1", 120, 260, "N2", 0, 140⟩]

def c3file : List String :=
  ["chrX\t.\tgene\t10\t20\t.\t+\t.\tID=p1",
   "chr1\t.\texon\t150\t180\t.\t+\t.\tID=c1;Parent=p1"]

/-- Claim C3 counterexample: the exon line (line 1) has old id `chr1`
present in the alignment index and its start 150 is covered by *two*
records (set size 2 ≠ 1), so the claim demands its root-group be marked
`POSITION_REMOVED` — but its parent (line 0, unknown id `chrX`) already
forced the whole group to `SEQUENCE_REMOVED`, the exon is skipped by the
guard of source line 157, and the group ends `SEQUENCE_REMOVED`. -/
theorem C3_counterexample :
    (updateGff c3align c3file).map (fun t => dget t.2.1.statusMap 1) =
      .ok (some .sequence_removed) ∧
    inAlignmentDict c3align "chr1" = true ∧
    (startMappings (alignment_dict c3align "chr1") 150).length = 2 ∧
    (splitTab "chr1\t.\texon\t150\t180\t.\t+\t.\tID=c1;Parent=p1").get? 0 =
      some "chr1" ∧
    pyInt "150" = .ok 150 ∧
    some Status.sequence_removed ≠ some Status.position_removed := by
  exact ⟨by rfl, by rfl, by rfl, by rfl, by rfl, by decide⟩

/-- Claim C3 (amended): a feature line whose old id is in the alignment
index but whose start- or end-mapping set has size ≠ 1 (i.e.
`classifyFeature` answers `posRemoved`) is never rewritten (it gets no
converted text), and its whole root-group ends the pass uniformly in one
removed disposition — `POSITION_REMOVED` when the line is still
unclassified when reached, or the earlier removal (e.g.
`SEQUENCE_REMOVED`) if another member of its root-group already removed
the group. -/
theorem C3_nonunique_mapping_removes_group (al : List AlignRec)
    (lines : List String) (p1 : FindRootState) (p2 : UpdateState)
    (p3 : OutputState) (j r : Nat) (lj : String)
    (h : updateGff al lines = .ok (p1, p2, p3))
    (hj : (numberedLines lines).get? j = some lj)
    (hfeat : ¬ pyFirstChar lj = some '#')
    (hcf : classifyFeature al (splitTab lj) = .ok .posRemoved)
    (hroot : p1.rootList.get? j = some r) :
    (∃ v, removedStatus v ∧ ∀ k, k ∈ dgetList p1.rootLineDict r →
      dget p2.statusMap k = some v) ∧
    dget p2.convMap j = none := by
  obtain ⟨⟨hF0, hF1, hF2, hF3⟩, hInv, hPost⟩ :=
    updateGff_invariants al lines p1 p2 p3 h
  obtain ⟨hU7, hU0, hU1, hU2, hU3, hU4, hU5, hU6⟩ := hInv
  have hjlen : j < (numberedLines lines).length :=
    (List.get?_eq_some.mp hj).choose
  have hjproc : j < p2.curNum := by
    rcases hPost with hP | ⟨l, hP, hl⟩
    · have := congrArg List.length hP
      rw [List.length_drop] at this
      simp at this
      omega
    · have hlen := congrArg List.length hP
      rw [List.length_drop] at hlen
      simp at hlen
      have hcur_lt := drop_cons_lt hP
      have hNc : (numberedLines lines).get? p2.curNum = some l := drop_cons_get? hP
      by_cases hje : j = p2.curNum
      · subst hje
        rw [hj] at hNc
        have := Option.some.inj hNc
        subst this
        exact absurd hl hfeat
      · omega
  have hstat3 := (hU2 j lj hjproc hj).2 hfeat
  have hstat_removed : ∃ v, removedStatus v ∧ dget p2.statusMap j = some v := by
    rcases hstat3 with hk | hs | hp
    · exfalso
      obtain ⟨-, nt, hnt⟩ := hU6 j lj hj hk
      rw [hcf] at hnt
      have := Except.ok.inj hnt
      exact FeatureOutcome.noConfusion this
    · exact ⟨.sequence_removed, Or.inl rfl, hs⟩
    · exact ⟨.position_removed, Or.inr rfl, hp⟩
  obtain ⟨v, hv, hstat⟩ := hstat_removed
  constructor
  · obtain ⟨r', hget', hmem'⟩ := hF2 j (by omega)
    rw [hroot] at hget'
    have := Option.some.inj hget'
    subst this
    exact ⟨v, hv, fun k hk => hU4 r v hv ⟨j, hmem', hstat⟩ k hk⟩
  · cases hconv : dget p2.convMap j with
    | none => rfl
    | some c =>
      exfalso
      rcases hU5 j lj c hj hconv with ⟨hh, -⟩ | ⟨-, nt, hnt, -⟩
      · exact hfeat hh
      · rw [hcf] at hnt
        have := Except.ok.inj hnt
        exact FeatureOutcome.noConfusion this

/-- Claim C3 amended-theorem witness: the exon of the `c5file` scenario has
an uncovered end coordinate; its whole group (the gene and the exon) ends
`POSITION_REMOVED` and the exon is not rewritten. -/
theorem C3_nonunique_mapping_removes_group_witness :
    (∃ v, removedStatus v ∧ ∀ k, k ∈ dgetList c5p1.rootLineDict 1 →
      dget c5p2.statusMap k = some v) ∧
    dget c5p2.convMap 2 = none :=
  C3_nonunique_mapping_removes_group c5align c5file c5p1 c5p2 c5p3 2 1
    "chr1\t.\texon\t150\t250\t.\t+\t.\tID=e1;Parent=g1"
    (by rfl) (by rfl) (by decide) (by rfl) (by rfl)

/-! ### Pass-3: counting (claim C7) -/

/-- `line[0] == '#'` as a Bool. -/
def isCommentLine (l : String) : Bool := pyFirstChar l == some '#'

/-- The number of lines of `ls` (numbered from `lc`) whose status is
`KEEP`, `POSITION_REMOVED` or `SEQUENCE_REMOVED` — exactly the lines that
`_output_features` tallies in one of its two counters. -/
def countTallied (sm : List (Nat × Status)) : Nat → List String → Nat
  | _, [] => 0
  | lc, _ :: rest =>
    (if dget sm lc = some .keep ∨ dget sm lc = some .position_removed ∨
        dget sm lc = some .sequence_removed then 1 else 0) +
    countTallied sm (lc + 1) rest

theorem outputLoop_counts (al : List AlignRec) (sm : List (Nat × Status))
    (cm : List (Nat × String)) :
    ∀ (ls : List String) (ost : OutputState) (lc : Nat) (p3 : OutputState),
      outputLoop al sm cm ost lc ls = .ok p3 →
      p3.updatedCount + p3.removedCount =
        ost.updatedCount + ost.removedCount + countTallied sm lc ls := by
  intro ls
  induction ls with
  | nil =>
    intro ost lc p3 h
    unfold outputLoop at h
    injection h with h
    subst h
    simp [countTallied]
  | cons line rest ih =>
    intro ost lc p3 h
    unfold outputLoop at h
    split at h
    · exact absurd h (by simp)
    next stt hstt =>
    have hsv : dget sm lc = some stt := pyKeyE_ok_iff.mp hstt
    unfold countTallied
    split at h
    case isTrue hkeep =>
      subst hkeep
      rw [if_pos (Or.inl hsv)]
      split at h
      · exact absurd h (by simp)
      next conv hconv =>
      split at h
      case isTrue hw =>
        have := ih _ _ p3 h
        dsimp only at this
        omega
      case isFalse hw =>
        split at h
        · exact absurd h (by simp)
        next reg hreg =>
        have := ih _ _ p3 h
        dsimp only at this
        omega
    case isFalse hkeep =>
    split at h
    case isTrue hhdr =>
      subst hhdr
      rw [if_neg ?hcond]
      case hcond =>
        rw [hsv]
        rintro (hx | hx | hx) <;>
          exact Status.noConfusion (Option.some.inj hx)
      split at h
      · exact absurd h (by simp)
      next conv hconv =>
      have := ih _ _ p3 h
      dsimp only at this
      omega
    case isFalse hhdr =>
    split at h
    case isTrue hrem =>
      rw [if_pos ?hcond]
      case hcond =>
        rcases hrem with hr | hr <;> subst hr
        · exact Or.inr (Or.inl hsv)
        · exact Or.inr (Or.inr hsv)
      have := ih _ _ p3 h
      dsimp only at this
      omega
    case isFalse hrem =>
      rw [if_neg ?hcond]
      case hcond =>
        rw [hsv]
        rintro (hx | hx | hx) <;> exact
          (by
            have := Option.some.inj hx
            subst this
            first
            | exact hkeep rfl
            | exact hrem (Or.inr rfl)
            | exact hrem (Or.inl rfl) : False)
      have := ih _ _ p3 h
      omega

theorem countTallied_eq_features (sm : List (Nat × Status)) :
    ∀ (ls : List String) (lc : Nat),
      (∀ t l, ls.get? t = some l →
        ((dget sm (lc + t) = some .keep ∨
          dget sm (lc + t) = some .position_removed ∨
          dget sm (lc + t) = some .sequence_removed) ↔
          ¬ pyFirstChar l = some '#')) →
      countTallied sm lc ls =
        (ls.filter (fun l => !isCommentLine l)).length := by
  intro ls
  induction ls with
  | nil => intro lc h; simp [countTallied]
  | cons line rest ih =>
    intro lc h
    have h0 := h 0 line rfl
    rw [Nat.add_zero] at h0
    unfold countTallied
    rw [List.filter_cons]
    have hrec := ih (lc + 1) (fun t l hl => by
      have := h (t + 1) l (by simpa using hl)
      rwa [show lc + (t + 1) = lc + 1 + t by omega] at this)
    by_cases hcl : pyFirstChar line = some '#'
    · have hc1 : (!isCommentLine line) = false := by
        simp [isCommentLine, hcl]
      have hcond : ¬ (dget sm lc = some .keep ∨
          dget sm lc = some .position_removed ∨
          dget sm lc = some .sequence_removed) := by
        intro hx
        exact (h0.mp hx) hcl
      rw [if_neg hcond, hrec, hc1]
      simp
    · have hc1 : (!isCommentLine line) = true := by
        simp [isCommentLine, hcl]
      rw [if_pos (h0.mpr hcl), hrec, hc1]
      simp
      omega

/-- Claim C7: after emission, `updated_count + removed_count` equals the
number of non-blank, non-`#` feature lines preceding any `##FASTA` marker
(`numberedLines` drops blank lines and stops at `##FASTA`; header lines
count in neither tally). -/
theorem C7_conservation (al : List AlignRec) (lines : List String)
    (p1 : FindRootState) (p2 : UpdateState) (p3 : OutputState)
    (h : updateGff al lines = .ok (p1, p2, p3)) :
    p3.updatedCount + p3.removedCount =
      ((numberedLines lines).filter (fun l => !isCommentLine l)).length := by
  obtain ⟨-, h2, h3⟩ := updateGff_ok_split al lines p1 p2 p3 h
  obtain ⟨⟨hF0, hF1, hF2, hF3⟩, hInv, hPost⟩ :=
    updateGff_invariants al lines p1 p2 p3 h
  obtain ⟨hU7, hU0, hU1, hU2, hU3, hU4, hU5, hU6⟩ := hInv
  have hcounts := outputLoop_counts al p2.statusMap p2.convMap p2.lineList
    initOutput 0 p3 h3
  rw [hcounts]
  have hbridge := countTallied_eq_features p2.statusMap p2.lineList 0 ?_
  · rw [hbridge]
    simp only [initOutput, Nat.zero_add]
    -- the unprocessed suffix of the numbered lines holds no feature lines
    rcases hPost with hP | ⟨l0, hP, hl0⟩
    · have hlen : (numberedLines lines).length ≤ p2.curNum := by
        have := congrArg List.length hP
        rw [List.length_drop] at this
        simp at this
        omega
      rw [hU0, List.take_of_length_le hlen]
    · have hsplit := List.take_append_drop p2.curNum (numberedLines lines)
      rw [hU0]
      conv_rhs => rw [← hsplit]
      rw [List.filter_append, hP]
      have : List.filter (fun l => !isCommentLine l) [l0] = [] := by
        simp [isCommentLine, hl0]
      rw [this, List.append_nil]
  · intro t l hl
    have htlen : t < (numberedLines lines).length := by
      rw [hU0] at hl
      have h1 : t < (List.take p2.curNum (numberedLines lines)).length :=
        (List.get?_eq_some.mp hl).choose
      rw [List.length_take] at h1
      omega
    have htc : t < p2.curNum := by
      rw [hU0] at hl
      have h1 : t < (List.take p2.curNum (numberedLines lines)).length :=
        (List.get?_eq_some.mp hl).choose
      rw [List.length_take] at h1
      omega
    have hN : (numberedLines lines).get? t = some l := by
      rw [hU0, List.get?_take htc] at hl
      exact hl
    rw [Nat.zero_add]
    have hU2t := hU2 t l htc hN
    constructor
    · intro h3v hcomment
      rcases hU2t.1 hcomment with hx | hx <;>
        rcases h3v with hy | hy | hy <;>
          · rw [hx] at hy
            exact Status.noConfusion (Option.some.inj hy)
    · intro hf
      rcases hU2t.2 hf with hx | hx | hx
      · exact Or.inl hx
      · exact Or.inr (Or.inr hx)
      · exact Or.inr (Or.inl hx)

/-- Claim C7 witness: the `c5file` run writes 0 updated + 2 removed
features, matching its 2 numbered feature lines (the post-`##FASTA` feature
is never counted). -/
theorem C7_conservation_witness :
    c5p3.updatedCount + c5p3.removedCount =
      ((numberedLines c5file).filter (fun l => !isCommentLine l)).length :=
  C7_conservation c5align c5file c5p1 c5p2 c5p3 (by rfl)

/-! ### Pass-3: sequence-region lines (claim C6) -/

/-- Does this written line come from the synthesized-region branch for
`id`? -/
def isRegionOf (id : String) : OutLine → Bool
  | .region i _ => i == id
  | _ => false

/-- Column 1 of a converted line (`gff_converted_line_dict[lc].split("\t")[0]`,
source line 214). -/
def scaffoldOf (c : String) : String := (splitTab c).headD ""

/-- The text of a synthesized region line for `id`: header keyword, the id,
then `min(pos) + 1` and `max(pos)` over all mapped coordinates of that id's
records (the 0-based → 1-based shift applies to the lower bound only). -/
def RegionContent (al : List AlignRec) (id t : String) : Prop :=
  ∃ m M, m ∈ regionPositions al id ∧ M ∈ regionPositions al id ∧
    (∀ q ∈ regionPositions al id, m ≤ q ∧ q ≤ M) ∧
    t = "##sequence-region " ++ id ++ " " ++ pyStr (m + 1) ++ " " ++ pyStr M

theorem foldl_min_mem (ps : List Int) : ∀ p : Int, ps.foldl min p ∈ p :: ps := by
  induction ps with
  | nil => intro p; simp
  | cons p' ps ih =>
    intro p
    have := ih (min p p')
    rw [List.foldl_cons]
    rcases List.mem_cons.mp this with hx | hx
    · rw [hx]
      rcases min_choice p p' with hm | hm <;> rw [hm] <;> simp
    · simp [hx]

theorem foldl_min_le (ps : List Int) : ∀ (p : Int), ∀ q ∈ p :: ps, ps.foldl min p ≤ q := by
  induction ps with
  | nil =>
    intro p q hq
    simp at hq
    simp [hq]
  | cons p' ps ih =>
    intro p q hq
    rw [List.foldl_cons]
    have h1 : ps.foldl min (min p p') ≤ min p p' :=
      ih (min p p') (min p p') (by simp)
    have h2 : min p p' ≤ p := min_le_left _ _
    have h3 : min p p' ≤ p' := min_le_right _ _
    rcases List.mem_cons.mp hq with hx | hx
    · omega
    · rcases List.mem_cons.mp hx with hy | hy
      · omega
      · exact ih (min p p') q (by simp [hy])

theorem foldl_max_mem (ps : List Int) : ∀ p : Int, ps.foldl max p ∈ p :: ps := by
  induction ps with
  | nil => intro p; simp
  | cons p' ps ih =>
    intro p
    have := ih (max p p')
    rw [List.foldl_cons]
    rcases List.mem_cons.mp this with hx | hx
    · rw [hx]
      rcases max_choice p p' with hm | hm <;> rw [hm] <;> simp
    · simp [hx]

theorem foldl_max_ge (ps : List Int) : ∀ (p : Int), ∀ q ∈ p :: ps, q ≤ ps.foldl max p := by
  induction ps with
  | nil =>
    intro p q hq
    simp at hq
    simp [hq]
  | cons p' ps ih =>
    intro p q hq
    rw [List.foldl_cons]
    have h1 : max p p' ≤ ps.foldl max (max p p') :=
      ih (max p p') (max p p') (by simp)
    have h2 : p ≤ max p p' := le_max_left _ _
    have h3 : p' ≤ max p p' := le_max_right _ _
    rcases List.mem_cons.mp hq with hx | hx
    · omega
    · rcases List.mem_cons.mp hx with hy | hy
      · omega
      · exact ih (max p p') q (by simp [hy])

/-- A defined `sequence_regions` entry has the claimed min/max content. -/
theorem sequence_regions_content (al : List AlignRec) (id t : String)
    (h : sequence_regions al id = some t) : RegionContent al id t := by
  unfold sequence_regions at h
  split at h
  · exact Option.noConfusion h
  next p ps hpos =>
    have ht := Option.some.inj h
    refine ⟨ps.foldl min p, ps.foldl max p, ?_, ?_, ?_, ht.symm⟩
    · rw [hpos]; exact foldl_min_mem ps p
    · rw [hpos]; exact foldl_max_mem ps p
    · intro q hq
      rw [hpos] at hq
      exact ⟨foldl_min_le ps p q hq, foldl_max_ge ps p q hq⟩

theorem get?_append_snoc {α : Type} (tr : List α) (l2 : List α) (k : Nat)
    (h : k < tr.length) : (tr ++ l2).get? k = tr.get? k :=
  List.get?_append h

theorem get?_append_at {α : Type} (tr : List α) (a : α) (l2 : List α) :
    (tr ++ a :: l2).get? tr.length = some a := by
  rw [List.get?_append_right (le_refl _)]
  simp

theorem get?_append_at1 {α : Type} (tr : List α) (a b : α) :
    (tr ++ [a, b]).get? (tr.length + 1) = some b := by
  rw [List.get?_append_right (by omega)]
  simp

/-- The invariant of the emission loop: `wrote_sequence_region` is exactly
the set of scaffold ids of the `KEEP` lines emitted so far; each id's
region line occurs exactly when its id is in that set, exactly once,
immediately before the first `KEEP` line of that id; every region line has
the min/max content. -/
def EmitInv (al : List AlignRec) (ost : OutputState) : Prop :=
  (∀ id, id ∈ ost.wrote ↔ ∃ k lc c, ost.trace.get? k = some (.keep lc c) ∧
    scaffoldOf c = id) ∧
  (∀ id, (ost.trace.filter (isRegionOf id)).length =
    (if id ∈ ost.wrote then 1 else 0)) ∧
  (∀ k id t, ost.trace.get? k = some (.region id t) →
    (∃ lc c, ost.trace.get? (k + 1) = some (.keep lc c) ∧ scaffoldOf c = id) ∧
    (∀ k' lc' c', k' < k → ost.trace.get? k' = some (.keep lc' c') →
      scaffoldOf c' ≠ id)) ∧
  (∀ k id t, ost.trace.get? k = some (.region id t) → RegionContent al id t)

theorem outputLoop_emit_inv (al : List AlignRec) (sm : List (Nat × Status))
    (cm : List (Nat × String)) :
    ∀ (ls : List String) (ost : OutputState) (lc : Nat) (p3 : OutputState),
      outputLoop al sm cm ost lc ls = .ok p3 →
      EmitInv al ost → EmitInv al p3 := by
  intro ls
  induction ls with
  | nil =>
    intro ost lc p3 h hInv
    unfold outputLoop at h
    injection h with h
    subst h
    exact hInv
  | cons line rest ih =>
    intro ost lc p3 h hInv
    obtain ⟨hW, hR, hP, hC⟩ := hInv
    unfold outputLoop at h
    split at h
    · exact absurd h (by simp)
    next stt hstt =>
    split at h
    case isTrue hkeep =>
      split at h
      · exact absurd h (by simp)
      next conv hconv =>
      split at h
      case isTrue hw =>
        -- keep line for an id whose region is already written
        refine ih _ _ p3 h ⟨?_, ?_, ?_, ?_⟩
        · intro id
          dsimp only
          constructor
          · intro hid
            obtain ⟨k, lc', c', hk, hs⟩ := (hW id).mp hid
            have hklen : k < ost.trace.length := (List.get?_eq_some.mp hk).choose
            exact ⟨k, lc', c', by rw [get?_append_snoc _ _ _ hklen]; exact hk, hs⟩
          · rintro ⟨k, lc', c', hk, hs⟩
            by_cases hklen : k < ost.trace.length
            · rw [get?_append_snoc _ _ _ hklen] at hk
              exact (hW id).mpr ⟨k, lc', c', hk, hs⟩
            · have hkeq : k = ost.trace.length := by
                have hkk := (List.get?_eq_some.mp hk).choose
                simp at hkk
                omega
              subst hkeq
              rw [get?_append_at] at hk
              have hck := OutLine.keep.inj (Option.some.inj hk)
              rw [← hck.2] at hs
              rw [← hs]
              exact hw
        · intro id
          dsimp only
          rw [List.filter_append]
          simp [isRegionOf, hR id]
        · intro k id t hk
          dsimp only at hk ⊢
          by_cases hklen : k < ost.trace.length
          · rw [get?_append_snoc _ _ _ hklen] at hk
            obtain ⟨⟨lc', c', hnext, hs⟩, hbefore⟩ := hP k id t hk
            have hnlen : k + 1 < ost.trace.length :=
              (List.get?_eq_some.mp hnext).choose
            refine ⟨⟨lc', c', by rw [get?_append_snoc _ _ _ hnlen]; exact hnext, hs⟩, ?_⟩
            intro k' lc'' c'' hk' hkk
            rw [get?_append_snoc _ _ _ (by omega)] at hkk
            exact hbefore k' lc'' c'' hk' hkk
          · exfalso
            have hkeq : k = ost.trace.length := by
              have hkk := (List.get?_eq_some.mp hk).choose
              simp at hkk
              omega
            subst hkeq
            rw [get?_append_at] at hk
            exact OutLine.noConfusion (Option.some.inj hk)
        · intro k id t hk
          dsimp only at hk
          by_cases hklen : k < ost.trace.length
          · rw [get?_append_snoc _ _ _ hklen] at hk
            exact hC k id t hk
          · exfalso
            have hkeq : k = ost.trace.length := by
              have hkk := (List.get?_eq_some.mp hk).choose
              simp at hkk
              omega
            subst hkeq
            rw [get?_append_at] at hk
            exact OutLine.noConfusion (Option.some.inj hk)
      case isFalse hw =>
        split at h
        · exact absurd h (by simp)
        next reg hreg =>
        have hregv : sequence_regions al ((splitTab conv).headD "") = some reg :=
          pyKeyE_ok_iff.mp hreg
        refine ih _ _ p3 h ⟨?_, ?_, ?_, ?_⟩
        · intro id
          dsimp only
          constructor
          · intro hid
            rcases List.mem_append.mp hid with hid | hid
            · obtain ⟨k, lc', c', hk, hs⟩ := (hW id).mp hid
              have hklen : k < ost.trace.length := (List.get?_eq_some.mp hk).choose
              exact ⟨k, lc', c', by rw [get?_append_snoc _ _ _ hklen]; exact hk, hs⟩
            · have hid2 : id = (splitTab conv).headD "" := by simpa using hid
              subst hid2
              exact ⟨ost.trace.length + 1, lc, conv, get?_append_at1 _ _ _, rfl⟩
          · rintro ⟨k, lc', c', hk, hs⟩
            by_cases hklen : k < ost.trace.length
            · rw [get?_append_snoc _ _ _ hklen] at hk
              exact List.mem_append.mpr (Or.inl ((hW id).mpr ⟨k, lc', c', hk, hs⟩))
            · have hklen2 : k < ost.trace.length + 2 := by
                have hkk := (List.get?_eq_some.mp hk).choose
                simp at hkk
                omega
              by_cases hkeq : k = ost.trace.length
              · exfalso
                subst hkeq
                rw [get?_append_at] at hk
                exact OutLine.noConfusion (Option.some.inj hk)
              · have hkeq1 : k = ost.trace.length + 1 := by omega
                subst hkeq1
                rw [get?_append_at1] at hk
                have hck := OutLine.keep.inj (Option.some.inj hk)
                rw [← hck.2] at hs
                rw [← hs]
                exact List.mem_append.mpr (Or.inr (by simp [scaffoldOf]))
        · intro id
          dsimp only
          rw [List.filter_append, List.length_append]
          by_cases hid : ((splitTab conv).headD "") = id
          · subst hid
            rw [hR _, if_neg hw,
              if_pos (List.mem_append.mpr (Or.inr (by simp)))]
            simp [isRegionOf]
          · have hb : (((splitTab conv).headD "") == id) = false :=
              beq_eq_false_iff_ne.mpr hid
            have hflt : List.filter (isRegionOf id)
                [OutLine.region ((splitTab conv).headD "") reg,
                 OutLine.keep lc conv] = [] := by
              simp only [List.filter_cons, List.filter_nil, isRegionOf, hb,
                Bool.false_eq_true, if_false]
            rw [hflt, hR id]
            simp only [List.length_nil, Nat.add_zero]
            by_cases hidw : id ∈ ost.wrote
            · rw [if_pos hidw, if_pos (List.mem_append.mpr (Or.inl hidw))]
            · rw [if_neg hidw, if_neg ?hnm]
              case hnm =>
                intro hx
                rcases List.mem_append.mp hx with hx | hx
                · exact hidw hx
                · have hx2 : id = (splitTab conv).headD "" := by simpa using hx
                  exact hid hx2.symm
        · intro k id t hk
          dsimp only at hk ⊢
          by_cases hklen : k < ost.trace.length
          · rw [get?_append_snoc _ _ _ hklen] at hk
            obtain ⟨⟨lc', c', hnext, hs⟩, hbefore⟩ := hP k id t hk
            have hnlen : k + 1 < ost.trace.length :=
              (List.get?_eq_some.mp hnext).choose
            refine ⟨⟨lc', c', by rw [get?_append_snoc _ _ _ hnlen]; exact hnext, hs⟩, ?_⟩
            intro k' lc'' c'' hk' hkk
            rw [get?_append_snoc _ _ _ (by omega)] at hkk
            exact hbefore k' lc'' c'' hk' hkk
          · have hklen2 : k < ost.trace.length + 2 := by
              have hkk := (List.get?_eq_some.mp hk).choose
              simp at hkk
              omega
            by_cases hkeq : k = ost.trace.length
            · subst hkeq
              rw [get?_append_at] at hk
              have hrk := OutLine.region.inj (Option.some.inj hk)
              refine ⟨⟨lc, conv, by rw [get?_append_at1], hrk.1⟩, ?_⟩
              intro k' lc'' c'' hk' hkk
              rw [get?_append_snoc _ _ _ (by omega)] at hkk
              intro hs
              have hs2 : scaffoldOf c'' = (splitTab conv).headD "" := by
                rw [hs, ← hrk.1]
              exact hw ((hW _).mpr ⟨k', lc'', c'', hkk, hs2⟩)
            · exfalso
              have hkeq1 : k = ost.trace.length + 1 := by omega
              subst hkeq1
              rw [get?_append_at1] at hk
              exact OutLine.noConfusion (Option.some.inj hk)
        · intro k id t hk
          dsimp only at hk
          by_cases hklen : k < ost.trace.length
          · rw [get?_append_snoc _ _ _ hklen] at hk
            exact hC k id t hk
          · have hklen2 : k < ost.trace.length + 2 := by
              have hkk := (List.get?_eq_some.mp hk).choose
              simp at hkk
              omega
            by_cases hkeq : k = ost.trace.length
            · subst hkeq
              rw [get?_append_at] at hk
              have hrk := OutLine.region.inj (Option.some.inj hk)
              rw [← hrk.1, ← hrk.2]
              exact sequence_regions_content al _ reg hregv
            · exfalso
              have hkeq1 : k = ost.trace.length + 1 := by omega
              subst hkeq1
              rw [get?_append_at1] at hk
              exact OutLine.noConfusion (Option.some.inj hk)
    case isFalse hkeep =>
    split at h
    case isTrue hhdr =>
      split at h
      · exact absurd h (by simp)
      next conv hconv =>
      refine ih _ _ p3 h ⟨?_, ?_, ?_, ?_⟩
      · intro id
        dsimp only
        constructor
        · intro hid
          obtain ⟨k, lc', c', hk, hs⟩ := (hW id).mp hid
          have hklen : k < ost.trace.length := (List.get?_eq_some.mp hk).choose
          exact ⟨k, lc', c', by rw [get?_append_snoc _ _ _ hklen]; exact hk, hs⟩
        · rintro ⟨k, lc', c', hk, hs⟩
          by_cases hklen : k < ost.trace.length
          · rw [get?_append_snoc _ _ _ hklen] at hk
            exact (hW id).mpr ⟨k, lc', c', hk, hs⟩
          · exfalso
            have hkeq : k = ost.trace.length := by
              have hkk := (List.get?_eq_some.mp hk).choose
              simp at hkk
              omega
            subst hkeq
            rw [get?_append_at] at hk
            exact OutLine.noConfusion (Option.some.inj hk)
      · intro id
        dsimp only
        rw [List.filter_append]
        simp [isRegionOf, hR id]
      · intro k id t hk
        dsimp only at hk ⊢
        by_cases hklen : k < ost.trace.length
        · rw [get?_append_snoc _ _ _ hklen] at hk
          obtain ⟨⟨lc', c', hnext, hs⟩, hbefore⟩ := hP k id t hk
          have hnlen : k + 1 < ost.trace.length :=
            (List.get?_eq_some.mp hnext).choose
          refine ⟨⟨lc', c', by rw [get?_append_snoc _ _ _ hnlen]; exact hnext, hs⟩, ?_⟩
          intro k' lc'' c'' hk' hkk
          rw [get?_append_snoc _ _ _ (by omega)] at hkk
          exact hbefore k' lc'' c'' hk' hkk
        · exfalso
          have hkeq : k = ost.trace.length := by
            have hkk := (List.get?_eq_some.mp hk).choose
            simp at hkk
            omega
          subst hkeq
          rw [get?_append_at] at hk
          exact OutLine.noConfusion (Option.some.inj hk)
      · intro k id t hk
        dsimp only at hk
        by_cases hklen : k < ost.trace.length
        · rw [get?_append_snoc _ _ _ hklen] at hk
          exact hC k id t hk
        · exfalso
          have hkeq : k = ost.trace.length := by
            have hkk := (List.get?_eq_some.mp hk).choose
            simp at hkk
            omega
          subst hkeq
          rw [get?_append_at] at hk
          exact OutLine.noConfusion (Option.some.inj hk)
    case isFalse hhdr =>
    split at h
    case isTrue hrem =>
      exact ih _ _ p3 h ⟨hW, hR, hP, hC⟩
    case isFalse hrem =>
      exact ih _ _ p3 h ⟨hW, hR, hP, hC⟩

/-- Claim C6: in the updated output, the synthesized
`##sequence-region <id> <min+1> <max>` line for any `new_id` is written at
most once; when written, it sits immediately before the first `KEEP` line
whose rewritten column 1 is that id (and no earlier `KEEP` line targets the
id); and its two numbers are the minimum of all `new_start`/`new_end`
values of that id's records plus one, and their maximum. -/
theorem C6_region_line_unique (al : List AlignRec) (lines : List String)
    (p1 : FindRootState) (p2 : UpdateState) (p3 : OutputState)
    (h : updateGff al lines = .ok (p1, p2, p3)) (id : String) :
    (p3.trace.filter (isRegionOf id)).length ≤ 1 ∧
    (∀ k t, p3.trace.get? k = some (.region id t) →
      (∃ lc c, p3.trace.get? (k + 1) = some (.keep lc c) ∧ scaffoldOf c = id) ∧
      (∀ k' lc' c', k' < k → p3.trace.get? k' = some (.keep lc' c') →
        scaffoldOf c' ≠ id) ∧
      RegionContent al id t) := by
  obtain ⟨-, -, h3⟩ := updateGff_ok_split al lines p1 p2 p3 h
  have hInit : EmitInv al initOutput := by
    refine ⟨?_, ?_, ?_, ?_⟩
    · intro id0
      simp [initOutput]
    · intro id0
      simp [initOutput]
    · intro k id0 t hk
      simp [initOutput] at hk
    · intro k id0 t hk
      simp [initOutput] at hk
  obtain ⟨hW, hR, hP, hC⟩ :=
    outputLoop_emit_inv al p2.statusMap p2.convMap p2.lineList initOutput 0 p3
      h3 hInit
  constructor
  · rw [hR id]
    split <;> omega
  · intro k t hk
    exact ⟨(hP k id t hk).1, (hP k id t hk).2, hC k id t hk⟩

def c4p1 : FindRootState := ⟨[0], [(0, [0])], [("g1", 0)], 1⟩

def c4p2 : UpdateState :=
  ⟨[(0, .keep)], ["chr1\t.\tgene\t150\t180\t.\t+\t.\tID=g1"],
   [(0, "chr1_new\t.\tgene\t1050\t1080\t.\t+\t.\tID=g1")], 1⟩

def c4p3 : OutputState :=
  ⟨[.region "chr1_new" "##sequence-region chr1_new 1001 1100",
    .keep 0 "chr1_new\t.\tgene\t1050\t1080\t.\t+\t.\tID=g1"],
   [], ["chr1_new"], 1, 0⟩

/-- Claim C6 witness: in the `c4file` run, the `chr1_new` region line is
written exactly once. -/
theorem C6_region_line_unique_witness :
    (c4p3.trace.filter (isRegionOf "chr1_new")).length ≤ 1 :=
  (C6_region_line_unique c4align c4file c4p1 c4p2 c4p3 (by rfl) "chr1_new").1
